import Mathlib

/-!
Verification of the `treeconfigparser` configuration library.

The Python class `TreeConfigParser` holds `self.tree`, an `OrderedDict`
mapping each key either to a plain string (a leaf option) or to another
`TreeConfigParser` (a subsection).  We embed that recursive structure as
the inductive type `CTree` below: a `CTree` is the (ordered) entry list
of one section, with two cons forms, one for leaf entries and one for
subsection entries.  Strings are embedded as `List Char` so that all
operations are structurally recursive and kernel-computable.
-/

set_option autoImplicit false

/-- Strings of the embedded program: Python `str` as a list of characters. -/
abbrev Str := List Char

/-- One section of the configuration tree: the ordered entry list of the
`OrderedDict`.  `consLeaf k v t` is an entry holding the leaf string `v`,
`consSub k ts t` is an entry holding the subsection `ts`. -/
inductive CTree where
  | nil : CTree
  | consLeaf : Str → Str → CTree → CTree
  | consSub : Str → CTree → CTree → CTree
deriving DecidableEq

/-- A value stored in a section: either a leaf string or a subsection
(`TreeConfigParser` instance).  This is the type of `self.tree[key]`. -/
inductive CVal where
  | leaf : Str → CVal
  | sub : CTree → CVal
deriving DecidableEq

/-- Python exceptions that the embedded code can raise. -/
inductive PyErr where
  | keyError
  | indexError
  | attributeError
  | typeError
  | valueError
  | indentationError
  | zeroDivisionError
  | crossReferenceError
deriving DecidableEq

/-- Characters treated as whitespace by Python's `str.strip`, `str.split()`
and `str.isspace` (the ASCII fragment, which is all the embedded code
manipulates). -/
def isPySpace (c : Char) : Bool :=
  c = ' ' || c = '\t' || c = '\n' || c = '\x0b' || c = '\x0c' || c = '\r'

/-- Leading-whitespace removal (`str.lstrip`). -/
def trimLeft (s : Str) : Str := s.dropWhile isPySpace

/-- Trailing-whitespace removal (`str.rstrip`). -/
def trimRight (s : Str) : Str := (trimLeft s.reverse).reverse

/-- Python `str.strip()`. -/
def pyStrip (s : Str) : Str := trimRight (trimLeft s)

/-- Python `str.lower()` (ASCII fragment). -/
def pyLower (s : Str) : Str := s.map Char.toLower

/-- Python `str.split(sep)` for a one-character separator: the list of
chunks between occurrences of `sep`, keeping empty chunks (so the result
always has one more element than there are separators). -/
def splitOnChar (sep : Char) : Str → List Str
  | [] => [[]]
  | c :: rest =>
      if c = sep then [] :: splitOnChar sep rest
      else
        match splitOnChar sep rest with
        | h :: t => (c :: h) :: t
        | [] => [[c]]

/-- Python `str.split(sep, 1)` when `sep` occurs: the part before the
first occurrence and the part after it (the whole string and `[]` when
`sep` does not occur). -/
def splitFirstAt (sep : Char) : Str → Str × Str
  | [] => ([], [])
  | c :: rest =>
      if c = sep then ([], rest)
      else
        let r := splitFirstAt sep rest
        (c :: r.1, r.2)

/-- Index of the first occurrence of `pat` as a contiguous substring
(`str.find` restricted to the found case). -/
def findSub (pat : Str) : Str → Option Nat
  | [] => if pat = [] then some 0 else none
  | c :: rest =>
      if pat.isPrefixOf (c :: rest) then some 0
      else (findSub pat (rest)).map (· + 1)

/-- Python `str.find`: index of the first occurrence, `-1` when absent. -/
def pyFind (pat s : Str) : Int :=
  match findSub pat s with
  | some n => (n : Int)
  | none => -1

/-- One step of Python `str.replace`: scan left to right replacing
non-overlapping occurrences.  The fuel argument is the length of the
scanned string, which bounds the recursion (each step consumes at least
one character since the pattern is nonempty where this is called). -/
def replaceFuel (pat repl : Str) : Nat → Str → Str
  | _, [] => []
  | 0, s => s
  | fuel + 1, c :: rest =>
      if pat.isPrefixOf (c :: rest) then
        repl ++ replaceFuel pat repl fuel (List.drop (pat.length - 1) rest)
      else c :: replaceFuel pat repl fuel rest

/-- Python `str.replace(pat, repl)` for a nonempty pattern (the embedded
code only replaces reference tokens, which contain at least the two
delimiter characters). -/
def pyReplace (s pat repl : Str) : Str :=
  match pat with
  | [] => s
  | _ :: _ => replaceFuel pat repl s.length s

/-- `n` spaces, the indentation prefix written by the nested-format
writer. -/
def spacesC (n : Nat) : Str := List.replicate n ' '

/-- Python list slicing `l[:d]` for a possibly negative index, as used by
`update_keylist` (`keylist[:depth]` where `depth` comes from floor
division). -/
def pyTake (kl : List Str) (d : Int) : List Str :=
  if 0 ≤ d then kl.take d.toNat else kl.take ((kl.length : Int) + d).toNat

/-- Result of the `string_to_bool` conversion.  `valueErrorObject` records
the `ValueError` instance that the source builds and then **returns** (it
is not raised), so the object flows back to the caller as the converted
value. -/
inductive BoolRes where
  | val : Bool → BoolRes
  | valueErrorObject : Str → BoolRes
deriving DecidableEq

/-- `string_to_bool` from `string_conversion`: case-insensitive match of
the true and false vocabularies; any other string produces a `ValueError`
object which is returned as a normal value. -/
def string_to_bool (v : Str) : BoolRes :=
  if pyLower v ∈ ["true".data, "yes".data, "on".data, "1".data] then .val true
  else if pyLower v ∈ ["false".data, "no".data, "off".data, "0".data] then .val false
  else .valueErrorObject ('"' :: v ++ '"' :: " cannot be converted to bool".data)

namespace TreeConfigParser

/-- `self.tree[key]` as a read: first entry with the given key. -/
def lookup : CTree → Str → Option CVal
  | .nil, _ => none
  | .consLeaf k v t, key => if k = key then some (.leaf v) else lookup t key
  | .consSub k ts t, key => if k = key then some (.sub ts) else lookup t key

/-- `key in self.tree`. -/
def hasKey : CTree → Str → Bool
  | .nil, _ => false
  | .consLeaf k _ t, key => k = key || hasKey t key
  | .consSub k _ t, key => k = key || hasKey t key

/-- The single entry `[(k, v)]` as a tree. -/
def single (k : Str) (v : CVal) : CTree :=
  match v with
  | .leaf s => .consLeaf k s .nil
  | .sub ts => .consSub k ts .nil

/-- Concatenation of entry lists. -/
def appendT : CTree → CTree → CTree
  | .nil, t => t
  | .consLeaf k v r, t => .consLeaf k v (appendT r t)
  | .consSub k ts r, t => .consSub k ts (appendT r t)

/-- `self.tree[key] = v` on an `OrderedDict`: an existing key keeps its
position and gets the new value, a new key is appended at the end. -/
def assign : CTree → Str → CVal → CTree
  | .nil, k, v => single k v
  | .consLeaf k' v' r, k, v =>
      if k' = k then appendT (single k' v) r else .consLeaf k' v' (assign r k v)
  | .consSub k' ts' r, k, v =>
      if k' = k then appendT (single k' v) r else .consSub k' ts' (assign r k v)

/-- The ordered key list of a section (`self.tree.keys()`). -/
def keysOf : CTree → List Str
  | .nil => []
  | .consLeaf k _ t => k :: keysOf t
  | .consSub k _ t => k :: keysOf t

/-- `TreeConfigParser.get` with the default `to_type='string'` conversion:
`key = keylist[0]` (raising `IndexError` on an empty keylist); on a longer
keylist it recurses into `self.tree[key]` (`KeyError` when absent,
`AttributeError` when the entry is a leaf string, which has no `get`
method); on the final key it applies `string_conversion` with the identity
`string_to_string` conversion, so the stored object is returned as is. -/
def get : CTree → List Str → Except PyErr CVal
  | _, [] => .error .indexError
  | c, [k] =>
      match lookup c k with
      | none => .error .keyError
      | some v => .ok v
  | c, k :: k' :: kl =>
      match lookup c k with
      | none => .error .keyError
      | some (.leaf _) => .error .attributeError
      | some (.sub ts) => get ts (k' :: kl)

/-- `TreeConfigParser.set`: descends the keylist; at each non-final key an
absent entry is created as an empty subsection when `update_tree` is true
(mutating the tree before the recursive call) and raises `KeyError`
otherwise; a leaf entry at a non-final key raises `AttributeError` (a
string has no `set` method); the final key is assigned unconditionally.
The returned tree is the state after the call, including sections already
created before an exception was raised. -/
def set : CTree → List Str → Str → Bool → Option PyErr × CTree
  | c, [], _, _ => (some .indexError, c)
  | c, [k], v, _ => (none, assign c k (.leaf v))
  | c, k :: k' :: kl, v, ut =>
      match lookup c k with
      | some (.sub ts) =>
          let r := set ts (k' :: kl) v ut
          (r.1, assign c k (.sub r.2))
      | some (.leaf _) => (some .attributeError, c)
      | none =>
          if ut then
            let r := set .nil (k' :: kl) v ut
            (r.1, assign c k (.sub r.2))
          else (some .keyError, c)

/-- `TreeConfigParser.options`: an empty (or omitted) keylist lists the
keys of the node itself; otherwise it recurses into `self.tree[keylist[0]]`. -/
def options : CTree → List Str → Except PyErr (List Str)
  | c, [] => .ok (keysOf c)
  | c, k :: kl =>
      match lookup c k with
      | none => .error .keyError
      | some (.leaf _) => .error .attributeError
      | some (.sub ts) => options ts kl

/-- `TreeConfigParser.suboptions`: depth-first enumeration of the keylists
of all leaves, in entry (insertion) order; subsections contribute their
recursively collected keylists prefixed by their own key. -/
def suboptions : CTree → List (List Str)
  | .nil => []
  | .consLeaf k _ t => [k] :: suboptions t
  | .consSub k ts t => (suboptions ts).map (fun kl => k :: kl) ++ suboptions t

/-- The recursive root-level body of `TreeConfigParser.merge`: iterates
over the other configuration's entries in order; when both sides hold a
subsection at the key they are merged recursively, when only the other
side holds a subsection a fresh empty one is installed and merged into,
and a leaf on the other side is assigned directly. -/
def mergeRoot (self : CTree) : CTree → CTree
  | .nil => self
  | .consLeaf k v rest => mergeRoot (assign self k (.leaf v)) rest
  | .consSub k os rest =>
      match lookup self k with
      | some (.sub ss) => mergeRoot (assign self k (.sub (mergeRoot ss os))) rest
      | _ => mergeRoot (assign self k (.sub (mergeRoot .nil os))) rest

/-- `TreeConfigParser.merge`: descends `keylist` (creating sections when
`update_tree` is true, raising `KeyError` or `AttributeError` like `set`
otherwise) and merges the other configuration into the target section. -/
def merge : CTree → CTree → List Str → Bool → Option PyErr × CTree
  | c, other, [], _ => (none, mergeRoot c other)
  | c, other, k :: kl, ut =>
      match lookup c k with
      | some (.sub ts) =>
          let r := merge ts other kl ut
          (r.1, assign c k (.sub r.2))
      | some (.leaf _) => (some .attributeError, c)
      | none =>
          if ut then
            let r := merge .nil other kl ut
            (r.1, assign c k (.sub r.2))
          else (some .keyError, c)

/-- Structural copy performed by the root case of `TreeConfigParser.clone`:
subsections are cloned recursively, leaf strings are copied as values. -/
def cloneTree : CTree → CTree
  | .nil => .nil
  | .consLeaf k v t => .consLeaf k v (cloneTree t)
  | .consSub k ts t => .consSub k (cloneTree ts) (cloneTree t)

/-- `TreeConfigParser.clone`: descends the keylist and returns a deep copy
of the addressed node. -/
def clone : CTree → List Str → Except PyErr CTree
  | c, [] => .ok (cloneTree c)
  | c, k :: kl =>
      match lookup c k with
      | none => .error .keyError
      | some (.leaf _) => .error .attributeError
      | some (.sub ts) => clone ts kl

/-- `TreeConfigParser.subconfig`: descends the keylist and returns the
addressed node itself (an alias, not a copy). -/
def subconfig : CTree → List Str → Except PyErr CTree
  | c, [] => .ok c
  | c, k :: kl =>
      match lookup c k with
      | none => .error .keyError
      | some (.leaf _) => .error .attributeError
      | some (.sub ts) => subconfig ts kl

/-- `config.get(keylist)` with `to_type='string'` (the default):
`string_to_string` is the identity, so the stored object comes back
unchanged, be it a leaf string or a whole subsection. -/
def get_string (c : CTree) (kl : List Str) : Except PyErr CVal := get c kl

/-- `config.get(keylist, to_type='bool')`: the stored object is passed to
`string_to_bool`, which calls `.lower()` on it — an `AttributeError` when
the object is a subsection rather than a string. -/
def get_bool (c : CTree) (kl : List Str) : Except PyErr BoolRes :=
  match get c kl with
  | .error e => .error e
  | .ok (.sub _) => .error .attributeError
  | .ok (.leaf v) => .ok (string_to_bool v)

/-! ### The nested-convention ('py') parser of `read_file` -/

/-- `is_tree_node` from `read_file`: after stripping, a line of length
more than two that starts with `[` and ends with `]`. -/
def is_tree_node (line : Str) : Bool :=
  let l := pyStrip line
  decide (2 < l.length) && l.head? == some '[' && l.getLast? == some ']'

/-- `update_keylist` from `read_file`: the indentation width must be a
multiple of the configured unit (`IndentationError` otherwise, or
`ZeroDivisionError` for a zero unit, as in Python), and the resulting
depth must not exceed the current keylist's length (`IndentationError`);
the keylist is truncated to that depth.  The depth argument is an integer
because `extract_tree_node_py` passes `line.find(key) - 1`. -/
def update_keylist (kl : List Str) (depth : Int) (ind : Nat) : Except PyErr (List Str) :=
  if ind = 0 then .error .zeroDivisionError
  else if depth % (ind : Int) ≠ 0 then .error .indentationError
  else if (kl.length : Int) < depth / (ind : Int) then .error .indentationError
  else .ok (pyTake kl (depth / (ind : Int)))

/-- One line of the nested convention (`read_line_py`): truncate at the
comment character, skip blank lines, open a subsection on a bracket line
(`extract_tree_node_py`), otherwise split the leaf line on the first `=`
and insert it with `update_tree=True` (`extract_tree_leaf_py`).  Returns
the updated tree and current keylist. -/
def read_line_py (c : CTree) (kl : List Str) (line : Str) (cc : Char) (ind : Nat) :
    Except PyErr (CTree × List Str) :=
  let l := (splitOnChar cc line).headD []
  if l.all isPySpace then .ok (c, kl)
  else if is_tree_node l then
    let key := ((pyStrip l).drop 1).dropLast
    match update_keylist kl (pyFind key l - 1) ind with
    | .error e => .error e
    | .ok kl' => .ok (c, kl' ++ [key])
  else
    let kv :=
      if '=' ∈ l then
        let r := splitFirstAt '=' l
        (pyStrip r.1, pyStrip r.2)
      else (pyStrip l, [])
    match update_keylist kl (pyFind kv.1 l) ind with
    | .error e => .error e
    | .ok kl' =>
        match set c (kl' ++ [kv.1]) kv.2 true with
        | (some e, _) => .error e
        | (none, c') => .ok (c', kl')

/-- The `convention='py'` parsing loop of `read_file` over the file's
lines, threading the tree and the current keylist. -/
def read_lines_py (c : CTree) (kl : List Str) (lines : List Str) (cc : Char) (ind : Nat) :
    Except PyErr (CTree × List Str) :=
  match lines with
  | [] => .ok (c, kl)
  | l :: rest =>
      match read_line_py c kl l cc ind with
      | .error e => .error e
      | .ok (c', kl') => read_lines_py c' kl' rest cc ind

/-! ### The nested-convention writer of `tofile` -/

/-- `write_tree_py` from `tofile`: a subsection entry emits its bracket
line at `depth*indentation` spaces followed by its recursive body one
level deeper; a leaf entry emits `key = value` at its own depth. -/
def writeTreePy : CTree → Nat → Nat → List Str
  | .nil, _, _ => []
  | .consLeaf k v rest, d, ind =>
      (spacesC (d * ind) ++ k ++ ' ' :: '=' :: ' ' :: v) :: writeTreePy rest d ind
  | .consSub k ts rest, d, ind =>
      (spacesC (d * ind) ++ '[' :: (k ++ [']']))
        :: (writeTreePy ts (d + 1) ind ++ writeTreePy rest d ind)

/-! ### The reference resolver of `read_file` -/

/-- `has_reference`: the value is longer than two characters and contains
the reference delimiter. -/
def has_reference (v : Str) (rc : Char) : Bool :=
  decide (2 < v.length) && v.contains rc

/-- `extract_references`: the chunks at odd positions of the split on the
reference delimiter, skipping empty ones. -/
def extract_references (v : Str) (rc : Char) : List Str :=
  (((splitOnChar rc v).enum.filter (fun p => !p.2.isEmpty && p.1 % 2 == 1)).map Prod.snd)

/-- `solve_references_keylist` with the recursive string resolution
abstracted as `f`: read the leaf with `get` (a subsection there makes
`has_reference` call `len` on a `TreeConfigParser`, a `TypeError`),
resolve the value, write it back with `update_tree=False`, and return it. -/
def solveKlWith (f : CTree → Str → Except PyErr (Str × CTree)) (c : CTree) (kl : List Str) :
    Except PyErr (Str × CTree) :=
  match get c kl with
  | .error e => .error e
  | .ok (.sub _) => .error .typeError
  | .ok (.leaf v) =>
      match f c v with
      | .error e => .error e
      | .ok (v', c') =>
          match set c' kl v' false with
          | (some e, _) => .error e
          | (none, c'') => .ok (v', c'')

/-- The reference loop of `solve_references_string`: each extracted
reference keylist is resolved (one budget step below the caller, which is
what `f` closes over) and every occurrence of its token is substituted
before the next reference is processed. -/
def solveListWith (f : CTree → Str → Except PyErr (Str × CTree)) (rc : Char) :
    CTree → Str → List Str → Except PyErr (Str × CTree)
  | c, v, [] => .ok (v, c)
  | c, v, ref :: rest =>
      match solveKlWith f c (splitOnChar '.' ref) with
      | .error e => .error e
      | .ok (sub, c') => solveListWith f rc c' (pyReplace v (rc :: ref ++ [rc]) sub) rest

/-- `solve_references_string`: a value without a reference token is
returned as is; with the budget exhausted a `CrossReferenceError` is
raised; otherwise every referenced keylist is resolved with budget
`max_rec - 1` and substituted in. -/
def solve_references_string : Nat → CTree → Str → Char → Except PyErr (Str × CTree)
  | m, c, v, rc =>
      if has_reference v rc = false then .ok (v, c)
      else
        match m with
        | 0 => .error .crossReferenceError
        | m' + 1 =>
            solveListWith (fun c' v' => solve_references_string m' c' v' rc) rc c v
              (extract_references v rc)

/-- `solve_references_keylist`: resolve the leaf at `kl` with budget `m`;
the string resolution inside runs at the same budget and decrements it for
each nested reference it chases. -/
def solve_references_keylist (c : CTree) (kl : List Str) (m : Nat) (rc : Char) :
    Except PyErr (Str × CTree) :=
  solveKlWith (fun c' v' => solve_references_string m c' v' rc) c kl

/-- The resolution loop at the end of `read_file`: every leaf keylist in
`suboptions()` order is resolved, each call receiving the same budget
`max_rec = len(keylistlist) - 1`. -/
def solveRefsPassGo (rc : Char) (m : Nat) : CTree → List (List Str) → Except PyErr CTree
  | c, [] => .ok c
  | c, kl :: rest =>
      match solve_references_keylist c kl m rc with
      | .error e => .error e
      | .ok (_, c') => solveRefsPassGo rc m c' rest

/-- The full reference-resolution pass of `read_file`: enumerate the
leaves once, set `max_rec` to their count minus one, and resolve each in
order. -/
def solveReferencesPass (c : CTree) (rc : Char) : Except PyErr CTree :=
  solveRefsPassGo rc ((suboptions c).length - 1) c (suboptions c)

/-- `read_file` for `convention='py'` starting from an empty tree (the
`fromfile` entry point): parse the lines, then run the
reference-resolution pass. -/
def read_file_py (lines : List Str) (cc rc : Char) (ind : Nat) : Except PyErr CTree :=
  match read_lines_py .nil [] lines cc ind with
  | .error e => .error e
  | .ok (c, _) => solveReferencesPass c rc

/-! ### The shared-budget reading of the resolution pass

The specification describes "a single shared recursion budget initialized
to (total leaf count − 1), … decremented on every nested resolution step
across the whole pass".  The following definitions follow the
specification's words (not the source): the budget is threaded through
the whole pass as state, each nested keylist resolution runs with the
budget decremented, and the leftover budget flows to the next step.  A
fuel argument, decremented on every call, only forces termination and is
irrelevant as long as it is large enough. -/

/-- Call descriptor for the shared-budget resolver: resolve a value,
walk a reference list, or resolve a keylist. -/
inductive SharedIn where
  | strv : Str → Nat → SharedIn
  | refs : Str → List Str → Nat → SharedIn
  | kl : List Str → Nat → SharedIn

/-- The shared-budget resolver, following the specification's words.
Returns `none` only when the fuel runs out. -/
def solveShared (rc : Char) : Nat → CTree → SharedIn → Option (Except PyErr (Str × CTree × Nat))
  | 0, _, _ => none
  | fuel + 1, c, .strv v b =>
      if has_reference v rc = false then some (.ok (v, c, b))
      else if b = 0 then some (.error .crossReferenceError)
      else solveShared rc fuel c (.refs v (extract_references v rc) b)
  | _ + 1, c, .refs v [] b => some (.ok (v, c, b))
  | fuel + 1, c, .refs v (ref :: rest) b =>
      match solveShared rc fuel c (.kl (splitOnChar '.' ref) (b - 1)) with
      | none => none
      | some (.error e) => some (.error e)
      | some (.ok (sub, c', b')) =>
          solveShared rc fuel c' (.refs (pyReplace v (rc :: ref ++ [rc]) sub) rest b')
  | fuel + 1, c, .kl kl b =>
      match get c kl with
      | .error e => some (.error e)
      | .ok (.sub _) => some (.error .typeError)
      | .ok (.leaf v) =>
          match solveShared rc fuel c (.strv v b) with
          | none => none
          | some (.error e) => some (.error e)
          | some (.ok (v', c', b')) =>
              match set c' kl v' false with
              | (some e, _) => some (.error e)
              | (none, c'') => some (.ok (v', c'', b'))

/-- The outer enumeration of the shared-budget pass: the leftover budget
of each leaf's resolution is carried into the next leaf. -/
def solveSharedPassGo (rc : Char) (fuel : Nat) :
    CTree → Nat → List (List Str) → Option (Except PyErr CTree)
  | c, _, [] => some (.ok c)
  | c, b, kl :: rest =>
      match solveShared rc fuel c (.kl kl b) with
      | none => none
      | some (.error e) => some (.error e)
      | some (.ok (_, c', b')) => solveSharedPassGo rc fuel c' b' rest

/-- The whole resolution pass under the shared-budget reading of the
specification: one budget of (leaf count − 1), shared across the pass. -/
def solveReferencesPassShared (fuel : Nat) (c : CTree) (rc : Char) : Option (Except PyErr CTree) :=
  solveSharedPassGo rc fuel c ((suboptions c).length - 1) (suboptions c)

/-! ### Well-formedness and legality predicates -/

/-- Keys are unique at the top level of the tree. -/
def topNodup : CTree → Bool
  | .nil => true
  | .consLeaf k _ t => !hasKey t k && topNodup t
  | .consSub k _ t => !hasKey t k && topNodup t

/-- Keys are unique at every level. -/
def nodupDeep : CTree → Bool
  | .nil => true
  | .consLeaf k _ t => !hasKey t k && nodupDeep t
  | .consSub k ts t => !hasKey t k && nodupDeep ts && nodupDeep t

/-- A key that survives the nested-format round trip unchanged: nonempty,
strip-invariant, and free of the structural characters `=`, `[`, `]` and
of the comment character. -/
def legalKey (cc : Char) (k : Str) : Bool :=
  !k.isEmpty && pyStrip k == k && !k.contains '=' && !k.contains '[' && !k.contains ']'
    && !k.contains cc

/-- A value that survives the round trip unchanged: strip-invariant and
free of the comment and reference characters. -/
def legalVal (cc rc : Char) (v : Str) : Bool :=
  pyStrip v == v && !v.contains cc && !v.contains rc

/-- A tree whose keys and values are all legal, with unique keys at every
level and no empty subsection. -/
def legalTree (cc rc : Char) : CTree → Bool
  | .nil => true
  | .consLeaf k v t => legalKey cc k && legalVal cc rc v && !hasKey t k && legalTree cc rc t
  | .consSub k ts t =>
      legalKey cc k && (match ts with | .nil => false | _ => true) && !hasKey t k
        && legalTree cc rc ts && legalTree cc rc t

/-! ### Proof-side auxiliary notions (paths of sections) -/

/-- The section addressed by a path of section keys, when every step of
the path names a subsection. -/
def getSec : CTree → List Str → Option CTree
  | c, [] => some c
  | c, k :: kl =>
      match lookup c k with
      | some (.sub ts) => getSec ts kl
      | _ => none

/-- Replace the section addressed by a path of section keys (identity
when the path does not address a section). -/
def setSec : CTree → List Str → CTree → CTree
  | _, [], c' => c'
  | c, k :: kl, c' =>
      match lookup c k with
      | some (.sub ts) => assign c k (.sub (setSec ts kl c'))
      | _ => c

/-- The nested single-entry chain created when `set` with
`update_tree=True` builds a fresh path ending in a leaf. -/
def chainLeafT : List Str → Str → CTree
  | [], _ => .nil
  | [k], v => .consLeaf k v .nil
  | k :: k' :: q, v => .consSub k (chainLeafT (k' :: q) v) .nil

/-- The nested single-entry chain of sections wrapping a given tree. -/
def chainSecT : List Str → CTree → CTree
  | [], ts => ts
  | k :: q, ts => .consSub k (chainSecT q ts) .nil

/-- The subsection held by an optional entry value, or the empty section:
the state `merge` recurses into at a shared key. -/
def subOrNil : Option CVal → CTree
  | some (.sub ss) => ss
  | _ => .nil


/-! ## Lemmas about the ordered-map primitives -/

theorem lookup_eq_none_of_hasKey_false {c : CTree} {k : Str} (h : hasKey c k = false) :
    lookup c k = none := by
  induction c with
  | nil => rfl
  | consLeaf k' v t ih =>
      simp only [hasKey, Bool.or_eq_false_iff, decide_eq_false_iff_not] at h
      simp [lookup, h.1, ih h.2]
  | consSub k' ts t ihs iht =>
      simp only [hasKey, Bool.or_eq_false_iff, decide_eq_false_iff_not] at h
      simp [lookup, h.1, iht h.2]

theorem hasKey_false_of_lookup_eq_none {c : CTree} {k : Str} (h : lookup c k = none) :
    hasKey c k = false := by
  induction c with
  | nil => rfl
  | consLeaf k' v t ih =>
      by_cases hk : k' = k
      · simp [lookup, hk] at h
      · simp only [lookup, if_neg hk] at h
        simp [hasKey, hk, ih h]
  | consSub k' ts t ihs iht =>
      by_cases hk : k' = k
      · simp [lookup, hk] at h
      · simp only [lookup, if_neg hk] at h
        simp [hasKey, hk, iht h]

theorem lookup_assign_self (c : CTree) (k : Str) (v : CVal) :
    lookup (assign c k v) k = some v := by
  induction c with
  | nil => cases v <;> simp [assign, single, lookup]
  | consLeaf k' v' t ih =>
      by_cases hk : k' = k
      · subst hk
        cases v <;> simp [assign, lookup, appendT, single]
      · simp [assign, hk, lookup, ih]
  | consSub k' ts t ihs iht =>
      by_cases hk : k' = k
      · subst hk
        cases v <;> simp [assign, lookup, appendT, single]
      · simp [assign, hk, lookup, iht]

theorem lookup_assign_ne (c : CTree) {k k' : Str} (v : CVal) (h : k ≠ k') :
    lookup (assign c k v) k' = lookup c k' := by
  induction c with
  | nil => cases v <;> simp [assign, single, lookup, h]
  | consLeaf ka va t ih =>
      by_cases hk : ka = k
      · subst hk
        cases v <;> simp [assign, lookup, appendT, single, h]
      · simp [assign, hk, lookup, ih]
  | consSub ka ts t ihs iht =>
      by_cases hk : ka = k
      · subst hk
        cases v <;> simp [assign, lookup, appendT, single, h]
      · simp [assign, hk, lookup, iht]

theorem assign_same {c : CTree} {k : Str} {v : CVal} (h : lookup c k = some v) :
    assign c k v = c := by
  induction c with
  | nil => simp [lookup] at h
  | consLeaf k' v' t ih =>
      by_cases hk : k' = k
      · subst hk
        simp only [lookup, if_true, eq_self_iff_true, Option.some.injEq] at h
        subst h
        simp [assign, single, appendT]
      · simp only [lookup, if_neg hk] at h
        simp [assign, hk, ih h]
  | consSub k' ts t ihs iht =>
      by_cases hk : k' = k
      · subst hk
        simp only [lookup, if_true, eq_self_iff_true, Option.some.injEq] at h
        subst h
        simp [assign, single, appendT]
      · simp only [lookup, if_neg hk] at h
        simp [assign, hk, iht h]

theorem assign_fresh {c : CTree} {k : Str} (v : CVal) (h : hasKey c k = false) :
    assign c k v = appendT c (single k v) := by
  induction c with
  | nil => rfl
  | consLeaf k' v' t ih =>
      simp only [hasKey, Bool.or_eq_false_iff, decide_eq_false_iff_not] at h
      simp [assign, h.1, appendT, ih h.2]
  | consSub k' ts t ihs iht =>
      simp only [hasKey, Bool.or_eq_false_iff, decide_eq_false_iff_not] at h
      simp [assign, h.1, appendT, iht h.2]

theorem hasKey_appendT (a b : CTree) (k : Str) :
    hasKey (appendT a b) k = (hasKey a k || hasKey b k) := by
  induction a with
  | nil => simp [appendT, hasKey]
  | consLeaf k' v t ih => simp [appendT, hasKey, ih, Bool.or_assoc]
  | consSub k' ts t ihs iht => simp [appendT, hasKey, iht, Bool.or_assoc]

theorem lookup_appendT_fresh {a : CTree} {k : Str} (b : CTree) (h : hasKey a k = false) :
    lookup (appendT a b) k = lookup b k := by
  induction a with
  | nil => rfl
  | consLeaf k' v t ih =>
      simp only [hasKey, Bool.or_eq_false_iff, decide_eq_false_iff_not] at h
      simp [appendT, lookup, h.1, ih h.2]
  | consSub k' ts t ihs iht =>
      simp only [hasKey, Bool.or_eq_false_iff, decide_eq_false_iff_not] at h
      simp [appendT, lookup, h.1, iht h.2]

theorem appendT_assoc (a b c : CTree) :
    appendT (appendT a b) c = appendT a (appendT b c) := by
  induction a with
  | nil => rfl
  | consLeaf k v t ih => simp [appendT, ih]
  | consSub k ts t ihs iht => simp [appendT, iht]

theorem appendT_nil (a : CTree) : appendT a .nil = a := by
  induction a with
  | nil => rfl
  | consLeaf k v t ih => simp [appendT, ih]
  | consSub k ts t ihs iht => simp [appendT, iht]

theorem cloneTree_id (c : CTree) : cloneTree c = c := by
  induction c with
  | nil => rfl
  | consLeaf k v t ih => simp [cloneTree, ih]
  | consSub k ts t ihs iht => simp [cloneTree, ihs, iht]

end TreeConfigParser

/-! ## Claims about `get`, `set` and the structural operations -/

namespace TreeConfigParser

/-- Claim C9: for every tree, `get` and `set` with the empty keylist fail
with an out-of-range index error (`keylist[0]` on an empty list), while
`options`, `clone` and `subconfig` with an empty keylist address the root
node itself. -/
theorem empty_keylist_behaviour (t : CTree) (v : Str) (ut : Bool) :
    get_string t [] = .error .indexError ∧
    set t [] v ut = (some .indexError, t) ∧
    options t [] = .ok (keysOf t) ∧
    clone t [] = .ok t ∧
    subconfig t [] = .ok t :=
  ⟨rfl, rfl, rfl, by simp [clone, cloneTree_id], rfl⟩

/-- Claim C7: after a successful `set(keylist, value, update_tree=True)`,
an immediate `get` with the default `'string'` conversion on the same
keylist returns exactly the assigned string. -/
theorem set_then_get (kl : List Str) (t t' : CTree) (v : Str)
    (h : set t kl v true = (none, t')) :
    get_string t' kl = .ok (.leaf v) := by
  induction kl generalizing t t' with
  | nil => simp [set] at h
  | cons k rest ih =>
      cases rest with
      | nil =>
          simp only [set, Prod.mk.injEq] at h
          rw [← h.2]
          simp [get_string, get, lookup_assign_self]
      | cons k' rest' =>
          rw [show set t (k :: k' :: rest') v true
              = (match lookup t k with
                 | some (.sub ts) =>
                     let r := set ts (k' :: rest') v true
                     (r.1, assign t k (.sub r.2))
                 | some (.leaf _) => (some .attributeError, t)
                 | none =>
                     let r := set .nil (k' :: rest') v true
                     (r.1, assign t k (.sub r.2))) from by simp [set]] at h
          cases hl : lookup t k with
          | none =>
              rw [hl] at h
              simp only [Prod.mk.injEq] at h
              rw [← h.2]
              have hrec : set CTree.nil (k' :: rest') v true
                  = (none, (set CTree.nil (k' :: rest') v true).2) := by
                rw [← h.1]
              simp only [get_string, get, lookup_assign_self]
              exact ih _ _ hrec
          | some val =>
              cases val with
              | leaf s =>
                  rw [hl] at h
                  simp at h
              | sub ts =>
                  rw [hl] at h
                  simp only [Prod.mk.injEq] at h
                  rw [← h.2]
                  have hrec : set ts (k' :: rest') v true
                      = (none, (set ts (k' :: rest') v true).2) := by
                    rw [← h.1]
                  simp only [get_string, get, lookup_assign_self]
                  exact ih _ _ hrec

/-- Witness for `set_then_get` at a concrete input. -/
theorem set_then_get_witness :
    set .nil ["s".data, "o".data] "7".data true
      = (none, .consSub "s".data (.consLeaf "o".data "7".data .nil) .nil) ∧
    get_string (.consSub "s".data (.consLeaf "o".data "7".data .nil) .nil)
      ["s".data, "o".data] = .ok (.leaf "7".data) :=
  ⟨by decide, set_then_get ["s".data, "o".data] .nil _ "7".data (by decide)⟩

/-- Claim C10: when some non-final key of the keylist currently holds a
leaf string, `set` with `update_tree=True` raises `AttributeError` (a
string has no `set` method) before performing any assignment, leaving the
tree unchanged. -/
theorem set_through_leaf_fails (kl : List Str) (t : CTree) (v s : Str) (i : Nat)
    (hi : i + 1 < kl.length)
    (hleaf : get t (kl.take (i + 1)) = .ok (.leaf s)) :
    set t kl v true = (some .attributeError, t) := by
  induction kl generalizing t i with
  | nil => simp at hi
  | cons k rest ih =>
      cases i with
      | zero =>
          simp only [List.take_succ_cons, List.take_zero] at hleaf
          cases hl : lookup t k with
          | none => rw [get, hl] at hleaf; cases hleaf
          | some val =>
              cases val with
              | sub ts => rw [get, hl] at hleaf; cases hleaf
              | leaf s' =>
                  cases rest with
                  | nil => simp at hi
                  | cons k' rest' => simp [set, hl]
      | succ i' =>
          have hrest : i' + 1 < rest.length := by
            simpa [Nat.succ_lt_succ_iff] using hi
          cases rest with
          | nil => simp at hrest
          | cons k' rest' =>
              simp only [List.take_succ_cons] at hleaf
              cases hl : lookup t k with
              | none => rw [get, hl] at hleaf; cases hleaf
              | some val =>
                  cases val with
                  | leaf s' => rw [get, hl] at hleaf; cases hleaf
                  | sub ts =>
                      rw [get, hl] at hleaf
                      have hrec := ih ts i' hrest (by
                        rw [List.take_succ_cons]
                        exact hleaf)
                      simp [set, hl, hrec, assign_same hl]

/-- Witness for `set_through_leaf_fails` at a concrete input. -/
theorem set_through_leaf_fails_witness :
    0 + 1 < (["a".data, "b".data] : List (List Char)).length ∧
    get (.consLeaf "a".data "x".data .nil) (["a".data, "b".data].take (0 + 1))
      = .ok (.leaf "x".data) ∧
    set (.consLeaf "a".data "x".data .nil) ["a".data, "b".data] "y".data true
      = (some .attributeError, .consLeaf "a".data "x".data .nil) :=
  ⟨by decide, rfl,
    set_through_leaf_fails ["a".data, "b".data] (.consLeaf "a".data "x".data .nil)
      "y".data "x".data 0 (by decide) rfl⟩

/-- Counterexample to claim C1: `get` on a keylist whose final key names a
subsection, with the default `'string'` conversion, returns normally: the
identity conversion `string_to_string` hands back the subsection object. -/
theorem get_section_returns_normally :
    get_string (.consSub "a".data (.consLeaf "b".data "1".data .nil) .nil) ["a".data]
      = .ok (.sub (.consLeaf "b".data "1".data .nil)) := rfl

/-- Claim C1 (amended): `get` on a keylist naming a subsection returns the
subsection object itself under the default `'string'` conversion (the
identity conversion accepts any object), and only fails for a conversion
that actually inspects the string, such as `'bool'`, which raises
`AttributeError` calling `.lower()` on the subsection. -/
theorem get_section_string_vs_bool (t : CTree) (kl : List Str) (ts : CTree)
    (h : get t kl = .ok (.sub ts)) :
    get_string t kl = .ok (.sub ts) ∧ get_bool t kl = .error .attributeError :=
  ⟨h, by simp [get_bool, h]⟩

/-- Witness for `get_section_string_vs_bool` at a concrete input. -/
theorem get_section_string_vs_bool_witness :
    get (.consSub "x".data (.consLeaf "y".data "0".data .nil) .nil) ["x".data]
      = .ok (.sub (.consLeaf "y".data "0".data .nil)) ∧
    get_string (.consSub "x".data (.consLeaf "y".data "0".data .nil) .nil) ["x".data]
      = .ok (.sub (.consLeaf "y".data "0".data .nil)) ∧
    get_bool (.consSub "x".data (.consLeaf "y".data "0".data .nil) .nil) ["x".data]
      = .error .attributeError :=
  ⟨rfl,
    (get_section_string_vs_bool (.consSub "x".data (.consLeaf "y".data "0".data .nil) .nil)
      ["x".data] (.consLeaf "y".data "0".data .nil) rfl).1,
    (get_section_string_vs_bool (.consSub "x".data (.consLeaf "y".data "0".data .nil) .nil)
      ["x".data] (.consLeaf "y".data "0".data .nil) rfl).2⟩

/-- Claim C3: `string_to_bool` maps the case-insensitive true and false
vocabularies correctly, but for any other string it **returns** the
`ValueError` object as a normal value instead of raising it — the code
contradicts its own docstring, which promises `Raises a ValueError
otherwise`.  Evaluated at the failing input `'maybe'` and at in-vocabulary
inputs. -/
theorem string_to_bool_returns_error_object :
    string_to_bool "maybe".data
      = .valueErrorObject ('"' :: "maybe".data ++ '"' :: " cannot be converted to bool".data) ∧
    string_to_bool "On".data = .val true ∧
    string_to_bool "TRUE".data = .val true ∧
    string_to_bool "0".data = .val false ∧
    string_to_bool "No".data = .val false := by
  refine ⟨rfl, rfl, rfl, rfl, rfl⟩


/-- One run of `merge` skips entries with other keys: reading a key other
than the assigned one is unchanged (helper for the merge
characterisation). -/
theorem get_consLeaf_ne {k k2 : Str} (v : Str) (rest : CTree) (kl : List Str) (h : k ≠ k2) :
    get (.consLeaf k v rest) (k2 :: kl) = get rest (k2 :: kl) := by
  cases kl with
  | nil => simp [get, lookup, h]
  | cons k3 kl3 => simp [get, lookup, h]

/-- Reading past a subsection entry with a different key (helper). -/
theorem get_consSub_ne {k k2 : Str} (ts rest : CTree) (kl : List Str) (h : k ≠ k2) :
    get (.consSub k ts rest) (k2 :: kl) = get rest (k2 :: kl) := by
  cases kl with
  | nil => simp [get, lookup, h]
  | cons k3 kl3 => simp [get, lookup, h]

/-- Every keylist produced by `suboptions` is nonempty and starts with a
key of the tree. -/
theorem suboptions_mem_head {t : CTree} {kl : List Str} (h : kl ∈ suboptions t) :
    ∃ k kl2, kl = k :: kl2 ∧ hasKey t k = true := by
  induction t generalizing kl with
  | nil => simp [suboptions] at h
  | consLeaf k v rest ih =>
      simp only [suboptions, List.mem_cons] at h
      rcases h with h | h
      · exact ⟨k, [], by simp [h], by simp [hasKey]⟩
      · obtain ⟨k2, kl2, rfl, hk⟩ := ih h
        exact ⟨k2, kl2, rfl, by simp [hasKey, hk]⟩
  | consSub k ts rest ihs iht =>
      simp only [suboptions, List.mem_append, List.mem_map] at h
      rcases h with ⟨x, hx, rfl⟩ | h
      · exact ⟨k, x, rfl, by simp [hasKey]⟩
      · obtain ⟨k2, kl2, rfl, hk⟩ := iht h
        exact ⟨k2, kl2, rfl, by simp [hasKey, hk]⟩

/-- Soundness half: in a tree with unique keys at every level, every
keylist listed by `suboptions` addresses a leaf. -/
theorem suboptions_sound {t : CTree} {kl : List Str} (hnd : nodupDeep t = true)
    (h : kl ∈ suboptions t) : ∃ v, get t kl = .ok (.leaf v) := by
  induction t generalizing kl with
  | nil => simp [suboptions] at h
  | consLeaf k v rest ih =>
      simp only [nodupDeep, Bool.and_eq_true, Bool.not_eq_true'] at hnd
      simp only [suboptions, List.mem_cons] at h
      rcases h with h | h
      · subst h
        exact ⟨v, by simp [get, lookup]⟩
      · obtain ⟨k2, kl2, rfl, hk⟩ := suboptions_mem_head h
        have hne : k ≠ k2 := by
          rintro rfl
          rw [hnd.1] at hk
          cases hk
        rw [get_consLeaf_ne v rest _ hne]
        exact ih hnd.2 h
  | consSub k ts rest ihs iht =>
      simp only [nodupDeep, Bool.and_eq_true, Bool.not_eq_true'] at hnd
      simp only [suboptions, List.mem_append, List.mem_map] at h
      rcases h with ⟨x, hx, rfl⟩ | h
      · obtain ⟨k3, kl3, rfl, -⟩ := suboptions_mem_head hx
        obtain ⟨v, hv⟩ := ihs hnd.1.2 hx
        exact ⟨v, by simpa [get, lookup] using hv⟩
      · obtain ⟨k2, kl2, rfl, hk⟩ := suboptions_mem_head h
        have hne : k ≠ k2 := by
          rintro rfl
          rw [hnd.1.1] at hk
          cases hk
        rw [get_consSub_ne ts rest _ hne]
        exact iht hnd.2 h

/-- Completeness half: every keylist on which `get` returns a leaf is
listed by `suboptions`. -/
theorem suboptions_complete {t : CTree} {kl : List Str} {v : Str}
    (h : get t kl = .ok (.leaf v)) : kl ∈ suboptions t := by
  induction t generalizing kl with
  | nil =>
      exfalso
      rcases kl with _ | ⟨k, _ | ⟨k2, kl2⟩⟩ <;> simp [get, lookup] at h
  | consLeaf k v0 rest ih =>
      rcases kl with _ | ⟨k2, _ | ⟨k3, kl3⟩⟩
      · simp [get] at h
      · by_cases hk : k = k2
        · subst hk
          simp [suboptions]
        · rw [get_consLeaf_ne v0 rest _ hk] at h
          simp only [suboptions, List.mem_cons]
          exact Or.inr (ih h)
      · by_cases hk : k = k2
        · subst hk
          rw [show get (.consLeaf k v0 rest) (k :: k3 :: kl3)
              = .error .attributeError from by simp [get, lookup]] at h
          cases h
        · rw [get_consLeaf_ne v0 rest _ hk] at h
          simp only [suboptions, List.mem_cons]
          exact Or.inr (ih h)
  | consSub k ts rest ihs iht =>
      rcases kl with _ | ⟨k2, _ | ⟨k3, kl3⟩⟩
      · simp [get] at h
      · by_cases hk : k = k2
        · subst hk
          simp [get, lookup] at h
        · rw [get_consSub_ne ts rest _ hk] at h
          simp only [suboptions, List.mem_append]
          exact Or.inr (iht h)
      · by_cases hk : k = k2
        · subst hk
          rw [show get (.consSub k ts rest) (k :: k3 :: kl3)
              = get ts (k3 :: kl3) from by simp [get, lookup]] at h
          simp only [suboptions, List.mem_append, List.mem_map]
          exact Or.inl ⟨k3 :: kl3, ihs h, rfl⟩
        · rw [get_consSub_ne ts rest _ hk] at h
          simp only [suboptions, List.mem_append]
          exact Or.inr (iht h)

/-- Claim C6: in a tree with unique keys, `suboptions` lists exactly the
keylists addressing leaves (sections themselves are never listed), and it
does so in depth-first pre-order following insertion order, as on the
specification's example tree with leaves at depths 1, 2 and 3. -/
theorem suboptions_leaves_preorder (t : CTree) (kl : List Str) (hnd : nodupDeep t = true) :
    (kl ∈ suboptions t ↔ ∃ v, get t kl = .ok (.leaf v)) ∧
    suboptions (.consLeaf "option1".data "1".data
        (.consSub "section1".data
          (.consLeaf "option2".data "2".data
            (.consSub "subsection11".data (.consLeaf "option3".data "3".data .nil) .nil))
          .nil))
      = [["option1".data], ["section1".data, "option2".data],
         ["section1".data, "subsection11".data, "option3".data]] :=
  ⟨⟨fun h => suboptions_sound hnd h, fun ⟨_, hv⟩ => suboptions_complete hv⟩, rfl⟩

/-- Witness for `suboptions_leaves_preorder` at a concrete input. -/
theorem suboptions_leaves_preorder_witness :
    nodupDeep (.consSub "s".data (.consLeaf "o".data "1".data .nil) .nil) = true ∧
    ((["s".data, "o".data] ∈
        suboptions (.consSub "s".data (.consLeaf "o".data "1".data .nil) .nil)) ↔
      ∃ v, get (.consSub "s".data (.consLeaf "o".data "1".data .nil) .nil)
        ["s".data, "o".data] = .ok (.leaf v)) :=
  ⟨by decide,
    (suboptions_leaves_preorder (.consSub "s".data (.consLeaf "o".data "1".data .nil) .nil)
      ["s".data, "o".data] (by decide)).1⟩

/-- Claim C5: `merge` at the root imports every key of the other tree:
a leaf on the other side lands as that leaf (overwriting whatever was
there), a subsection on the other side is merged recursively into self's
subsection at that key when there is one and into a fresh empty section
otherwise, and keys absent from the other tree are untouched — so the
merged-in configuration wins all conflicts. -/
theorem merge_root_characterisation (o s : CTree) (k : Str) (hnd : topNodup o = true) :
    lookup (mergeRoot s o) k =
      (match lookup o k with
       | some (.leaf v) => some (.leaf v)
       | some (.sub os) => some (.sub (mergeRoot (subOrNil (lookup s k)) os))
       | none => lookup s k) := by
  induction o generalizing s with
  | nil => simp [mergeRoot, lookup]
  | consLeaf k2 v rest ihs =>
      simp only [topNodup, Bool.and_eq_true, Bool.not_eq_true'] at hnd
      by_cases hk : k2 = k
      · subst hk
        rw [show mergeRoot s (.consLeaf k2 v rest)
            = mergeRoot (assign s k2 (.leaf v)) rest from rfl]
        rw [ihs _ hnd.2, lookup_eq_none_of_hasKey_false hnd.1]
        simp [lookup, lookup_assign_self]
      · rw [show mergeRoot s (.consLeaf k2 v rest)
            = mergeRoot (assign s k2 (.leaf v)) rest from rfl]
        rw [ihs _ hnd.2, lookup_assign_ne s _ hk]
        simp [lookup, hk]
  | consSub k2 os rest ihos ihs =>
      simp only [topNodup, Bool.and_eq_true, Bool.not_eq_true'] at hnd
      have hstep : mergeRoot s (.consSub k2 os rest)
          = mergeRoot (assign s k2 (.sub (mergeRoot (subOrNil (lookup s k2)) os))) rest := by
        cases hls : lookup s k2 with
        | none => simp [mergeRoot, hls, subOrNil]
        | some val => cases val with
          | leaf lv => simp [mergeRoot, hls, subOrNil]
          | sub ss => simp [mergeRoot, hls, subOrNil]
      by_cases hk : k2 = k
      · subst hk
        rw [hstep, ihs _ hnd.2, lookup_eq_none_of_hasKey_false hnd.1]
        simp [lookup, lookup_assign_self]
      · rw [hstep, ihs _ hnd.2, lookup_assign_ne s _ hk]
        simp [lookup, hk]

/-- Witness for `merge_root_characterisation` at the specification's
example: base section `{option2: '2'}` merged with `{option2: '3',
option3: '3'}`; the merged-in side wins on the shared key. -/
theorem merge_root_characterisation_witness :
    topNodup (.consLeaf "option2".data "3".data
      (.consLeaf "option3".data "3".data .nil)) = true ∧
    lookup (mergeRoot (.consLeaf "option2".data "2".data .nil)
        (.consLeaf "option2".data "3".data (.consLeaf "option3".data "3".data .nil)))
      "option2".data = some (.leaf "3".data) :=
  ⟨by decide,
    (merge_root_characterisation
      (.consLeaf "option2".data "3".data (.consLeaf "option3".data "3".data .nil))
      (.consLeaf "option2".data "2".data .nil) "option2".data (by decide)).trans (by decide)⟩

/-- Claim C8: for a positive indentation unit, `update_keylist` fails with
`IndentationError` exactly when the indentation width is not a multiple of
the unit or the implied depth exceeds the current keylist's length, and
otherwise accepts the line, truncating the keylist to the implied depth. -/
theorem update_keylist_characterisation (kl : List Str) (w ind : Nat) (hind : 0 < ind) :
    ((update_keylist kl (w : Int) ind = .error .indentationError) ↔
      (¬ w % ind = 0 ∨ kl.length < w / ind)) ∧
    (w % ind = 0 → w / ind ≤ kl.length →
      update_keylist kl (w : Int) ind = .ok (kl.take (w / ind))) := by
  have hz : ind ≠ 0 := Nat.pos_iff_ne_zero.mp hind
  have hmodc : ((w : Int) % (ind : Int)) = ((w % ind : Nat) : Int) :=
    (Int.natCast_mod _ _).symm
  have hdivc : ((w : Int) / (ind : Int)) = ((w / ind : Nat) : Int) :=
    (Int.natCast_div _ _).symm
  unfold update_keylist
  rw [if_neg hz]
  simp only [hmodc, hdivc, ne_eq, Nat.cast_eq_zero, Nat.cast_lt]
  constructor
  · by_cases hmod : w % ind = 0
    · by_cases hdiv : kl.length < w / ind
      · simp [hmod, hdiv]
      · simp [hmod, hdiv, pyTake]
    · simp [hmod]
  · intro h1 h2
    rw [if_neg (by simp [h1]), if_neg (Nat.not_lt.mpr h2)]
    unfold pyTake
    rw [if_pos (Int.natCast_nonneg _), Int.toNat_natCast]

/-- Counterexample to claim C2: the recursion budget of the resolution
pass is **not** shared across the outer enumeration.  On this four-leaf
tree (`w='%p%.%p%.%p%'`, `p='q'`, `L='%m%'`, `m='%p%'`) the nested
resolution steps across the whole pass number five, exceeding the budget
`4 - 1 = 3`; a resolver that decrements one shared budget on every nested
step across the pass — the specification's words, embedded as
`solveReferencesPassShared` — fails with `CrossReferenceError`, while the
code's pass (`solveReferencesPass`, whose loop hands the full `max_rec` to
every leaf) succeeds. -/
theorem resolution_budget_not_shared :
    solveReferencesPass
      (.consLeaf "w".data "%p%.%p%.%p%".data
        (.consLeaf "p".data "q".data
          (.consLeaf "L".data "%m%".data
            (.consLeaf "m".data "%p%".data .nil)))) '%'
      = .ok (.consLeaf "w".data "q.q.q".data
          (.consLeaf "p".data "q".data
            (.consLeaf "L".data "q".data
              (.consLeaf "m".data "q".data .nil)))) ∧
    solveReferencesPassShared 1000
      (.consLeaf "w".data "%p%.%p%.%p%".data
        (.consLeaf "p".data "q".data
          (.consLeaf "L".data "%m%".data
            (.consLeaf "m".data "%p%".data .nil)))) '%'
      = some (.error .crossReferenceError) :=
  ⟨rfl, rfl⟩

/-- Claim C2 (amended): `read_file`'s resolution pass initializes the
budget to (total leaf count − 1) but passes it afresh to every leaf of the
outer enumeration — it is reset between leaves, not shared.  Within one
leaf's resolution each nested step runs with the budget decremented, and
exhausting it fails with `CrossReferenceError`: the four-leaf tree whose
chained references need five nested steps in total still resolves, while
a two-leaf reference cycle (`a='%b%'`, `b='%a%'`), whose single chain
exhausts its budget of one, fails. -/
theorem resolution_budget_reset_per_leaf :
    solveReferencesPass
      (.consLeaf "w".data "%p%.%p%.%p%".data
        (.consLeaf "p".data "q".data
          (.consLeaf "L".data "%m%".data
            (.consLeaf "m".data "%p%".data .nil)))) '%'
      = .ok (.consLeaf "w".data "q.q.q".data
          (.consLeaf "p".data "q".data
            (.consLeaf "L".data "q".data
              (.consLeaf "m".data "q".data .nil)))) ∧
    solveReferencesPass
      (.consLeaf "a".data "%b%".data (.consLeaf "b".data "%a%".data .nil)) '%'
      = .error .crossReferenceError :=
  ⟨rfl, rfl⟩

/-- Witness for `update_keylist_characterisation` at a concrete input. -/
theorem update_keylist_characterisation_witness :
    (0 : Nat) < 4 ∧ (4 : Nat) % 4 = 0 ∧ (4 : Nat) / 4 ≤ ([("sec".data : Str)] : List Str).length ∧
    update_keylist [("sec".data : Str)] ((4 : Nat) : Int) 4
      = .ok (([("sec".data : Str)] : List Str).take (4 / 4)) :=
  ⟨by decide, by decide, by decide,
    (update_keylist_characterisation [("sec".data : Str)] 4 4 (by decide)).2 (by decide)
      (by decide)⟩


/-! ## String-layer lemmas for the nested-format round trip -/

theorem length_dropWhile_le_local (p : Char → Bool) (l : Str) :
    (l.dropWhile p).length ≤ l.length :=
  List.Sublist.length_le (List.dropWhile_sublist p)

theorem contains_eq_false_iff {a : Char} {l : List Char} : l.contains a = false ↔ a ∉ l := by
  induction l with
  | nil => simp [List.contains]
  | cons b t ih =>
      simp only [List.contains_cons, Bool.or_eq_false_iff, ih, List.mem_cons, beq_eq_false_iff_ne,
        ne_eq]
      constructor
      · rintro ⟨h1, h2⟩ (rfl | hm)
        · exact h1 rfl
        · exact h2 hm
      · intro h
        exact ⟨fun hh => h (Or.inl hh), fun hm => h (Or.inr hm)⟩

theorem length_trimRight_le (x : Str) : (trimRight x).length ≤ x.length := by
  simpa [trimRight] using length_dropWhile_le_local isPySpace x.reverse

theorem dropWhile_length_eq {p : Char → Bool} {l : Str}
    (h : (l.dropWhile p).length = l.length) : l.dropWhile p = l := by
  induction l with
  | nil => rfl
  | cons a t ih =>
      by_cases hp : p a
      · rw [List.dropWhile_cons_of_pos hp] at h ⊢
        have := length_dropWhile_le_local p t
        simp at h
        omega
      · rw [List.dropWhile_cons_of_neg (by simpa using hp)]

theorem strip_self_parts {k : Str} (h : pyStrip k = k) :
    trimLeft k = k ∧ trimRight k = k := by
  have h1 : (trimRight (trimLeft k)).length ≤ (trimLeft k).length := length_trimRight_le _
  have h2 : (trimLeft k).length ≤ k.length := length_dropWhile_le_local _ _
  have h3 : (trimRight (trimLeft k)).length = k.length := by rw [show trimRight (trimLeft k) = k from h]
  have h4 : (trimLeft k).length = k.length := by omega
  have h5 : trimLeft k = k := dropWhile_length_eq h4
  exact ⟨h5, by simpa [pyStrip, h5] using h⟩

theorem trimLeft_cons_head {c : Char} {t : Str} (h : trimLeft (c :: t) = c :: t) :
    isPySpace c = false := by
  by_cases hp : isPySpace c
  · exfalso
    rw [show trimLeft (c :: t) = trimLeft t from List.dropWhile_cons_of_pos hp] at h
    have hlen : (trimLeft t).length ≤ t.length := length_dropWhile_le_local isPySpace t
    rw [h] at hlen
    simp at hlen
  · simpa using hp

theorem trimLeft_cons_nonspace {c : Char} (t : Str) (h : isPySpace c = false) :
    trimLeft (c :: t) = c :: t :=
  List.dropWhile_cons_of_neg (by simp [h])

theorem trimLeft_spacesC (n : Nat) (x : Str) : trimLeft (spacesC n ++ x) = trimLeft x := by
  induction n with
  | zero => simp [spacesC]
  | succ m ih =>
      rw [show spacesC (m + 1) = ' ' :: spacesC m from by simp [spacesC, List.replicate_succ]]
      rw [List.cons_append, show trimLeft (' ' :: (spacesC m ++ x)) = trimLeft (spacesC m ++ x)
        from List.dropWhile_cons_of_pos (by simp [isPySpace])]
      exact ih

theorem trimRight_cons_nonspace {c : Char} (t : Str) (h : isPySpace c = false) :
    trimRight (c :: t) = c :: trimRight t := by
  have key : ∀ y : Str, trimLeft (y ++ [c]) = trimLeft y ++ [c] := by
    intro y
    induction y with
    | nil => simp [trimLeft, List.dropWhile, h]
    | cons a t2 ih =>
        by_cases hp : isPySpace a
        · rw [List.cons_append, trimLeft, List.dropWhile_cons_of_pos hp, trimLeft,
            List.dropWhile_cons_of_pos hp] at *
          exact ih
        · rw [List.cons_append, trimLeft_cons_nonspace _ (by simpa using hp),
            trimLeft_cons_nonspace _ (by simpa using hp)]
          simp
  rw [trimRight, trimRight, List.reverse_cons, key]
  simp

theorem trimRight_append_space {c : Char} (x : Str) (h : isPySpace c = true) :
    trimRight (x ++ [c]) = trimRight x := by
  rw [trimRight, trimRight, List.reverse_append]
  simp only [List.reverse_cons, List.reverse_nil, List.nil_append, List.singleton_append]
  rw [show trimLeft (c :: x.reverse) = trimLeft x.reverse from List.dropWhile_cons_of_pos h]

theorem trimRight_append_nonspace {c : Char} (x : Str) (h : isPySpace c = false) :
    trimRight (x ++ [c]) = x ++ [c] := by
  rw [trimRight, List.reverse_append]
  simp only [List.reverse_cons, List.reverse_nil, List.nil_append, List.singleton_append]
  rw [trimLeft_cons_nonspace _ h]
  simp

theorem splitOnChar_head_notMem {cc : Char} {l : Str} (h : cc ∉ l) :
    (splitOnChar cc l).headD [] = l := by
  induction l with
  | nil => rfl
  | cons c t ih =>
      simp only [List.mem_cons, not_or] at h
      rw [splitOnChar, if_neg (fun hc => h.1 hc.symm)]
      have := ih h.2
      cases hs : splitOnChar cc t with
      | nil => rw [hs] at this; simp at this; simp [this]
      | cons y ys =>
          rw [hs] at this
          simp at this
          simp [this]

theorem splitFirstAt_append {sep : Char} {x : Str} (y : Str) (h : sep ∉ x) :
    splitFirstAt sep (x ++ sep :: y) = (x, y) := by
  induction x with
  | nil => simp [splitFirstAt]
  | cons c t ih =>
      simp only [List.mem_cons, not_or] at h
      rw [List.cons_append, splitFirstAt, if_neg (fun hc => h.1 hc.symm)]
      simp [ih h.2]

theorem isPrefixOf_self_append (k tail : Str) : k.isPrefixOf (k ++ tail) = true := by
  induction k with
  | nil => simp [List.isPrefixOf]
  | cons c t ih => simp [List.isPrefixOf, ih]

theorem findSub_self_append {k : Str} (tail : Str) (hk : k ≠ []) :
    findSub k (k ++ tail) = some 0 := by
  cases k with
  | nil => cases hk rfl
  | cons c t => rw [List.cons_append, findSub, if_pos (by
      simp [isPrefixOf_self_append (c :: t) tail])]

theorem findSub_cons_of_head_ne {k : Str} {a : Char} (s : Str)
    (hk : k ≠ []) (hne : k.headD ' ' ≠ a) :
    findSub k (a :: s) = (findSub k s).map (· + 1) := by
  cases k with
  | nil => cases hk rfl
  | cons c t =>
      rw [findSub, if_neg]
      simp only [List.headD_cons] at hne
      simp [List.isPrefixOf, hne]

theorem findSub_spaces {k : Str} (n : Nat) (tail : Str)
    (hk : k ≠ []) (hhead : isPySpace (k.headD ' ') = false) :
    findSub k (spacesC n ++ (k ++ tail)) = some n := by
  induction n with
  | zero =>
      simpa [spacesC] using findSub_self_append tail hk
  | succ m ih =>
      rw [show spacesC (m + 1) = ' ' :: spacesC m from by simp [spacesC, List.replicate_succ],
        List.cons_append]
      rw [findSub_cons_of_head_ne _ hk (by
        intro hc
        rw [hc] at hhead
        simp [isPySpace] at hhead)]
      rw [ih]
      rfl

theorem findSub_spaces_bracket {k : Str} (n : Nat) (tail : Str)
    (hk : k ≠ []) (hhead : isPySpace (k.headD ' ') = false) (hbr : k.headD ' ' ≠ '[') :
    findSub k (spacesC n ++ ('[' :: (k ++ tail))) = some (n + 1) := by
  induction n with
  | zero =>
      rw [show spacesC 0 ++ ('[' :: (k ++ tail)) = '[' :: (k ++ tail) from by simp [spacesC]]
      rw [findSub_cons_of_head_ne _ hk hbr, findSub_self_append tail hk]
      rfl
  | succ m ih =>
      rw [show spacesC (m + 1) = ' ' :: spacesC m from by simp [spacesC, List.replicate_succ],
        List.cons_append]
      rw [findSub_cons_of_head_ne _ hk (by
        intro hc
        rw [hc] at hhead
        simp [isPySpace] at hhead)]
      rw [ih]
      rfl


/-! ## Path lemmas for sections (`getSec`/`setSec`) and `set` -/

theorem assign_assign (c : CTree) (k : Str) (v w : CVal) :
    assign (assign c k v) k w = assign c k w := by
  induction c with
  | nil => cases v <;> cases w <;> simp [assign, single, appendT]
  | consLeaf k2 v2 t ih =>
      by_cases hk : k2 = k
      · subst hk
        cases v <;> cases w <;> simp [assign, single, appendT]
      · cases v <;> cases w <;> simp [assign, single, hk, ih]
  | consSub k2 ts t ihs iht =>
      by_cases hk : k2 = k
      · subst hk
        cases v <;> cases w <;> simp [assign, single, appendT]
      · cases v <;> cases w <;> simp [assign, single, hk, iht]

theorem assign_appendT_fresh {c0 : CTree} {k : Str} (t : CTree) (v : CVal)
    (h : hasKey c0 k = false) :
    assign (appendT c0 t) k v = appendT c0 (assign t k v) := by
  induction c0 with
  | nil => simp [appendT]
  | consLeaf k2 v2 r ih =>
      simp only [hasKey, Bool.or_eq_false_iff, decide_eq_false_iff_not] at h
      simp [appendT, assign, h.1, ih h.2]
  | consSub k2 ts r ihs iht =>
      simp only [hasKey, Bool.or_eq_false_iff, decide_eq_false_iff_not] at h
      simp [appendT, assign, h.1, iht h.2]

theorem setSec_of_getSec {root : CTree} {p : List Str} {c0 : CTree}
    (h : getSec root p = some c0) : setSec root p c0 = root := by
  induction p generalizing root with
  | nil =>
      simp only [getSec, Option.some.injEq] at h
      simp [setSec, h]
  | cons k p2 ih =>
      rw [getSec] at h
      cases hl : lookup root k with
      | none => rw [hl] at h; cases h
      | some val =>
          cases val with
          | leaf lv => rw [hl] at h; cases h
          | sub ts =>
              rw [hl] at h
              simp [setSec, hl, ih h, assign_same hl]

theorem getSec_setSec {root : CTree} {p : List Str} {c0 : CTree}
    (h : getSec root p = some c0) (x : CTree) : getSec (setSec root p x) p = some x := by
  induction p generalizing root with
  | nil => simp [getSec, setSec]
  | cons k p2 ih =>
      rw [getSec] at h
      cases hl : lookup root k with
      | none => rw [hl] at h; cases h
      | some val =>
          cases val with
          | leaf lv => rw [hl] at h; cases h
          | sub ts =>
              rw [hl] at h
              rw [setSec, hl, getSec, lookup_assign_self]
              exact ih h

theorem setSec_setSec {root : CTree} {p : List Str} {c0 : CTree}
    (h : getSec root p = some c0) (x y : CTree) :
    setSec (setSec root p x) p y = setSec root p y := by
  induction p generalizing root with
  | nil => simp [setSec]
  | cons k p2 ih =>
      rw [getSec] at h
      cases hl : lookup root k with
      | none => rw [hl] at h; cases h
      | some val =>
          cases val with
          | leaf lv => rw [hl] at h; cases h
          | sub ts =>
              rw [hl] at h
              have h2 : getSec ts p2 = some c0 := h
              have hinner : setSec root (k :: p2) x = assign root k (.sub (setSec ts p2 x)) := by
                simp [setSec, hl]
              rw [hinner]
              have hl2 : lookup (assign root k (.sub (setSec ts p2 x))) k
                  = some (.sub (setSec ts p2 x)) := lookup_assign_self _ _ _
              simp only [setSec, hl2, hl]
              rw [ih h2, assign_assign]

theorem getSec_append (root : CTree) (p q : List Str) :
    getSec root (p ++ q) = (getSec root p).bind (fun c => getSec c q) := by
  induction p generalizing root with
  | nil => simp [getSec]
  | cons k p2 ih =>
      rw [List.cons_append, getSec, getSec]
      cases hl : lookup root k with
      | none => simp
      | some val =>
          cases val with
          | leaf lv => simp
          | sub ts => simp [ih]

theorem setSec_append {root : CTree} {p : List Str} {c0 : CTree}
    (h : getSec root p = some c0) (q : List Str) (y : CTree) :
    setSec root (p ++ q) y = setSec root p (setSec c0 q y) := by
  induction p generalizing root with
  | nil =>
      simp only [getSec, Option.some.injEq] at h
      simp [setSec, h]
  | cons k p2 ih =>
      rw [getSec] at h
      cases hl : lookup root k with
      | none => rw [hl] at h; cases h
      | some val =>
          cases val with
          | leaf lv => rw [hl] at h; cases h
          | sub ts =>
              rw [hl] at h
              have h2 : getSec ts p2 = some c0 := h
              simp only [List.cons_append, setSec, hl, List.append_eq]
              rw [ih h2]

theorem getSec_chainSecT (q : List Str) (x : CTree) : getSec (chainSecT q x) q = some x := by
  induction q with
  | nil => simp [chainSecT, getSec]
  | cons k q2 ih => simp [chainSecT, getSec, lookup, ih]

theorem setSec_chainSecT (q : List Str) (x y : CTree) :
    setSec (chainSecT q x) q y = chainSecT q y := by
  induction q with
  | nil => simp [chainSecT, setSec]
  | cons k q2 ih => simp [chainSecT, setSec, lookup, ih, assign, single, appendT]

theorem getSec_appendT_chain {c0 : CTree} {k : Str} (q : List Str) (x : CTree)
    (hk : hasKey c0 k = false) :
    getSec (appendT c0 (chainSecT (k :: q) x)) (k :: q) = some x := by
  rw [getSec, lookup_appendT_fresh _ hk]
  rw [show chainSecT (k :: q) x = .consSub k (chainSecT q x) .nil from rfl]
  simp [lookup, getSec_chainSecT]

theorem setSec_appendT_chain {c0 : CTree} {k : Str} (q : List Str) (x y : CTree)
    (hk : hasKey c0 k = false) :
    setSec (appendT c0 (chainSecT (k :: q) x)) (k :: q) y
      = appendT c0 (chainSecT (k :: q) y) := by
  have hl : lookup (appendT c0 (chainSecT (k :: q) x)) k = some (.sub (chainSecT q x)) := by
    rw [lookup_appendT_fresh _ hk]
    simp [chainSecT, lookup]
  simp only [setSec, hl]
  rw [setSec_chainSecT, assign_appendT_fresh _ _ hk]
  simp [chainSecT, assign, single, appendT]

theorem chainLeafT_snoc (w : List Str) (k : Str) (v : Str) :
    chainLeafT (w ++ [k]) v = chainSecT w (.consLeaf k v .nil) := by
  induction w with
  | nil => simp [chainLeafT, chainSecT]
  | cons a w2 ih =>
      cases w2 with
      | nil => simp [chainLeafT, chainSecT]
      | cons b w3 =>
          simp only [List.cons_append] at ih ⊢
          rw [show chainLeafT (a :: b :: (w3 ++ [k])) v
              = .consSub a (chainLeafT (b :: (w3 ++ [k])) v) .nil from rfl]
          rw [ih]
          rfl

theorem chainSecT_snoc (w : List Str) (k : Str) (x : CTree) :
    chainSecT (w ++ [k]) x = chainSecT w (.consSub k x .nil) := by
  induction w with
  | nil => simp [chainSecT]
  | cons a w2 ih => simp [chainSecT, ih]

theorem set_nil_chain (v : Str) (kl : List Str) (k : Str) :
    set CTree.nil (k :: kl) v true = (none, chainLeafT (k :: kl) v) := by
  induction kl generalizing k with
  | nil => simp [set, assign, single, chainLeafT]
  | cons a as ih =>
      rw [show set CTree.nil (k :: a :: as) v true
          = ((set CTree.nil (a :: as) v true).1,
             assign CTree.nil k (.sub (set CTree.nil (a :: as) v true).2)) from by
        simp [set, lookup]]
      rw [ih a]
      simp [assign, single, chainLeafT]

theorem set_fresh_chain {c0 : CTree} {k : Str} (kl : List Str) (v : Str)
    (hk : hasKey c0 k = false) :
    set c0 (k :: kl) v true = (none, appendT c0 (chainLeafT (k :: kl) v)) := by
  have hl : lookup c0 k = none := lookup_eq_none_of_hasKey_false hk
  cases kl with
  | nil => simp [set, assign_fresh _ hk, single, chainLeafT]
  | cons a as =>
      rw [show set c0 (k :: a :: as) v true
          = ((set CTree.nil (a :: as) v true).1,
             assign c0 k (.sub (set CTree.nil (a :: as) v true).2)) from by
        simp [set, hl]]
      rw [set_nil_chain]
      rw [assign_fresh _ hk]
      rfl

theorem set_localize {root : CTree} {p : List Str} {c0 : CTree}
    (h : getSec root p = some c0) (kl : List Str) (hkl : kl ≠ []) (v : Str) :
    set root (p ++ kl) v true
      = ((set c0 kl v true).1, setSec root p (set c0 kl v true).2) := by
  induction p generalizing root with
  | nil =>
      simp only [getSec, Option.some.injEq] at h
      subst h
      simp [setSec]
  | cons k p2 ih =>
      rw [getSec] at h
      cases hl : lookup root k with
      | none => rw [hl] at h; cases h
      | some val =>
          cases val with
          | leaf lv => rw [hl] at h; cases h
          | sub ts =>
              rw [hl] at h
              obtain ⟨x, xs, hx⟩ := List.exists_cons_of_ne_nil
                (show p2 ++ kl ≠ [] by
                  intro hc
                  rcases List.append_eq_nil.mp hc with ⟨-, h2⟩
                  exact hkl h2)
              rw [List.cons_append, hx]
              rw [show set root (k :: x :: xs) v true
                  = ((set ts (x :: xs) v true).1,
                     assign root k (.sub (set ts (x :: xs) v true).2)) from by
                simp [set, hl]]
              rw [← hx, ih h]
              rw [setSec, hl]

theorem set_same_leaf {t : CTree} {kl : List Str} {v : Str} (ut : Bool)
    (h : get t kl = .ok (.leaf v)) : set t kl v ut = (none, t) := by
  induction kl generalizing t with
  | nil => simp [get] at h
  | cons k rest ih =>
      cases rest with
      | nil =>
          cases hl : lookup t k with
          | none => rw [get, hl] at h; cases h
          | some val =>
              rw [get, hl] at h
              cases val with
              | sub ts => simp at h
              | leaf lv =>
                  simp only [Except.ok.injEq, CVal.leaf.injEq] at h
                  subst h
                  simp [set, assign_same hl]
      | cons k2 rest2 =>
          cases hl : lookup t k with
          | none => rw [get, hl] at h; cases h
          | some val =>
              rw [get, hl] at h
              cases val with
              | leaf lv => cases h
              | sub ts =>
                  have hrec := ih h
                  cases ut <;> simp [set, hl, hrec, assign_same hl]


/-! ## Legality unpacking and the line-level parsing lemmas -/

theorem trimLeft_cons_space {c : Char} (t : Str) (h : isPySpace c = true) :
    trimLeft (c :: t) = trimLeft t :=
  List.dropWhile_cons_of_pos h

theorem legalKey_shape {cc : Char} {k : Str} (h : legalKey cc k = true) :
    ∃ ch t, k = ch :: t ∧ isPySpace ch = false ∧ ch ≠ '[' ∧
      trimLeft k = k ∧ trimRight k = k ∧ '=' ∉ k ∧ '[' ∉ k ∧ ']' ∉ k ∧ cc ∉ k := by
  simp only [legalKey, Bool.and_eq_true, beq_iff_eq, Bool.not_eq_true'] at h
  obtain ⟨⟨⟨⟨⟨hne, hstrip⟩, he⟩, hb1⟩, hb2⟩, hc⟩ := h
  obtain ⟨hTL, hTR⟩ := strip_self_parts hstrip
  cases k with
  | nil => simp at hne
  | cons ch t =>
      have hhd : isPySpace ch = false := trimLeft_cons_head hTL
      have hnb1 : '[' ∉ ch :: t := contains_eq_false_iff.mp hb1
      exact ⟨ch, t, rfl, hhd,
        fun hcontra => hnb1 (by rw [hcontra] at *; exact List.mem_cons_self _ _),
        hTL, hTR, contains_eq_false_iff.mp he, hnb1, contains_eq_false_iff.mp hb2,
        contains_eq_false_iff.mp hc⟩

theorem legalVal_parts {cc rc : Char} {v : Str} (h : legalVal cc rc v = true) :
    trimLeft v = v ∧ trimRight v = v ∧ cc ∉ v ∧ rc ∉ v := by
  simp only [legalVal, Bool.and_eq_true, beq_iff_eq, Bool.not_eq_true'] at h
  obtain ⟨⟨hstrip, hc⟩, hr⟩ := h
  obtain ⟨hTL, hTR⟩ := strip_self_parts hstrip
  exact ⟨hTL, hTR, contains_eq_false_iff.mp hc, contains_eq_false_iff.mp hr⟩

theorem update_keylist_mul {kl : List Str} {d ind : Nat} (hind : 0 < ind) (hd : d ≤ kl.length) :
    update_keylist kl ((d * ind : Nat) : Int) ind = .ok (kl.take d) := by
  have hz : ind ≠ 0 := Nat.pos_iff_ne_zero.mp hind
  unfold update_keylist
  rw [if_neg hz]
  have hmodc : ((d * ind : Nat) : Int) % (ind : Int) = ((d * ind % ind : Nat) : Int) :=
    (Int.natCast_mod _ _).symm
  have hdivc : ((d * ind : Nat) : Int) / (ind : Int) = ((d * ind / ind : Nat) : Int) :=
    (Int.natCast_div _ _).symm
  rw [hmodc, hdivc, Nat.mul_mod_left, Nat.mul_div_cancel _ hind]
  rw [if_neg (by simp), if_neg (by simp only [not_lt, Nat.cast_le]; exact hd)]
  unfold pyTake
  rw [if_pos (Int.natCast_nonneg _), Int.toNat_natCast]

theorem read_lines_append (c : CTree) (kl : List Str) (xs ys : List Str) (cc : Char) (ind : Nat) :
    read_lines_py c kl (xs ++ ys) cc ind
      = (match read_lines_py c kl xs cc ind with
         | .error e => .error e
         | .ok (c2, kl2) => read_lines_py c2 kl2 ys cc ind) := by
  induction xs generalizing c kl with
  | nil => simp [read_lines_py]
  | cons l rest ih =>
      rw [List.cons_append]
      cases hr : read_line_py c kl l cc ind with
      | error e => simp only [read_lines_py, hr]
      | ok p =>
          obtain ⟨c2, kl2⟩ := p
          simp only [read_lines_py, hr]
          exact ih c2 kl2

theorem read_line_node {cc : Char} {k : Str} (c : CTree) (kl : List Str) (d ind : Nat)
    (hind : 0 < ind) (hd : d ≤ kl.length)
    (hcc : cc ∉ ([' ', '=', '[', ']'] : List Char)) (hk : legalKey cc k = true) :
    read_line_py c kl (spacesC (d * ind) ++ '[' :: (k ++ [']'])) cc ind
      = .ok (c, kl.take d ++ [k]) := by
  obtain ⟨ch, t, hkct, hsp, hbr, hTL, hTR, hme, hmb1, hmb2, hmcc⟩ := legalKey_shape hk
  have hc1 : cc ≠ ' ' := fun hh => hcc (by rw [hh]; simp)
  have hc2 : cc ≠ '=' := fun hh => hcc (by rw [hh]; simp)
  have hc3 : cc ≠ '[' := fun hh => hcc (by rw [hh]; simp)
  have hc4 : cc ≠ ']' := fun hh => hcc (by rw [hh]; simp)
  have hccl : cc ∉ spacesC (d * ind) ++ '[' :: (k ++ [']']) := by
    intro hmem2
    rcases List.mem_append.mp hmem2 with hh | hh
    · exact hc1 (List.eq_of_mem_replicate hh)
    · rcases List.mem_cons.mp hh with hh2 | hh2
      · exact hc3 hh2
      · rcases List.mem_append.mp hh2 with hh3 | hh3
        · exact hmcc hh3
        · simp only [List.mem_singleton] at hh3
          exact hc4 hh3
  have hall : (spacesC (d * ind) ++ '[' :: (k ++ [']'])).all isPySpace = false := by
    refine Bool.eq_false_iff.mpr fun hall2 => ?_
    have := List.all_eq_true.mp hall2 '[' (by simp)
    simp [isPySpace] at this
  have hstripl : pyStrip (spacesC (d * ind) ++ '[' :: (k ++ [']'])) = '[' :: (k ++ [']']) := by
    unfold pyStrip
    rw [trimLeft_spacesC, trimLeft_cons_nonspace _ (by simp [isPySpace])]
    rw [show ('[' :: (k ++ [']'])) = ('[' :: k) ++ [']'] from by simp]
    rw [trimRight_append_nonspace _ (by simp [isPySpace])]
  have hgl : (('[' :: (k ++ [']'])) : Str).getLast? = some ']' := by
    rw [show ('[' :: (k ++ [']'])) = ('[' :: k) ++ [']'] from by simp]
    exact List.getLast?_concat _
  have hnode : is_tree_node (spacesC (d * ind) ++ '[' :: (k ++ [']'])) = true := by
    simp only [is_tree_node, hstripl, hgl]
    simp [hkct]
  have hkey : ((pyStrip (spacesC (d * ind) ++ '[' :: (k ++ [']']))).drop 1).dropLast = k := by
    rw [hstripl]
    simp [List.dropLast_concat]
  have hfind : pyFind k (spacesC (d * ind) ++ '[' :: (k ++ [']']))
      = ((d * ind : Nat) : Int) + 1 := by
    unfold pyFind
    rw [findSub_spaces_bracket (d * ind) [']'] (by rw [hkct]; exact List.cons_ne_nil _ _)
      (by rw [hkct]; simpa using hsp) (by rw [hkct]; simpa using hbr)]
    push_cast
    ring
  simp only [read_line_py, splitOnChar_head_notMem hccl, hall, Bool.false_eq_true, if_false,
    hnode, if_true, hkey, hfind]
  rw [show ((d * ind : Nat) : Int) + 1 - 1 = ((d * ind : Nat) : Int) from by ring]
  rw [update_keylist_mul hind hd]

theorem read_line_leaf {cc rc : Char} {k v : Str} (c : CTree) (kl : List Str) (d ind : Nat)
    (hind : 0 < ind) (hd : d ≤ kl.length)
    (hcc : cc ∉ ([' ', '=', '[', ']'] : List Char)) (hk : legalKey cc k = true)
    (hv : legalVal cc rc v = true) :
    read_line_py c kl (spacesC (d * ind) ++ k ++ ' ' :: '=' :: ' ' :: v) cc ind
      = (match set c (kl.take d ++ [k]) v true with
         | (some e, _) => .error e
         | (none, c2) => .ok (c2, kl.take d)) := by
  obtain ⟨ch, t, hkct, hsp, hbr, hTL, hTR, hme, hmb1, hmb2, hmcc⟩ := legalKey_shape hk
  obtain ⟨hvTL, hvTR, hvcc, hvrc⟩ := legalVal_parts hv
  have hc1 : cc ≠ ' ' := fun hh => hcc (by rw [hh]; simp)
  have hc2 : cc ≠ '=' := fun hh => hcc (by rw [hh]; simp)
  have hc3 : cc ≠ '[' := fun hh => hcc (by rw [hh]; simp)
  have hc4 : cc ≠ ']' := fun hh => hcc (by rw [hh]; simp)
  have hccl : cc ∉ spacesC (d * ind) ++ k ++ ' ' :: '=' :: ' ' :: v := by
    intro hmem2
    rcases List.mem_append.mp hmem2 with hh | hh
    · rcases List.mem_append.mp hh with hh2 | hh2
      · exact hc1 (List.eq_of_mem_replicate hh2)
      · exact hmcc hh2
    · rcases List.mem_cons.mp hh with hh2 | hh2
      · exact hc1 hh2
      · rcases List.mem_cons.mp hh2 with hh3 | hh3
        · exact hc2 hh3
        · rcases List.mem_cons.mp hh3 with hh4 | hh4
          · exact hc1 hh4
          · exact hvcc hh4
  have hall : (spacesC (d * ind) ++ k ++ ' ' :: '=' :: ' ' :: v).all isPySpace = false := by
    refine Bool.eq_false_iff.mpr fun hall2 => ?_
    have := List.all_eq_true.mp hall2 ch (by rw [hkct]; simp)
    rw [hsp] at this
    cases this
  have hstriphead : ∃ rest2, pyStrip (spacesC (d * ind) ++ k ++ ' ' :: '=' :: ' ' :: v)
      = ch :: rest2 := by
    unfold pyStrip
    rw [List.append_assoc, trimLeft_spacesC, hkct, List.cons_append,
      trimLeft_cons_nonspace _ hsp, trimRight_cons_nonspace _ hsp]
    exact ⟨_, rfl⟩
  obtain ⟨rest2, hstriphead⟩ := hstriphead
  have hnotnode : is_tree_node (spacesC (d * ind) ++ k ++ ' ' :: '=' :: ' ' :: v) = false := by
    simp only [is_tree_node, hstriphead]
    simp [hbr]
  have hmem : '=' ∈ spacesC (d * ind) ++ k ++ ' ' :: '=' :: ' ' :: v := by
    simp
  have hnosep : '=' ∉ spacesC (d * ind) ++ k ++ [' '] := by
    intro hh
    rcases List.mem_append.mp hh with hh2 | hh2
    · rcases List.mem_append.mp hh2 with hh3 | hh3
      · have := List.eq_of_mem_replicate hh3
        simp at this
      · exact hme hh3
    · simp at hh2
  have hsplit : splitFirstAt '=' (spacesC (d * ind) ++ k ++ ' ' :: '=' :: ' ' :: v)
      = (spacesC (d * ind) ++ k ++ [' '], ' ' :: v) := by
    rw [show spacesC (d * ind) ++ k ++ ' ' :: '=' :: ' ' :: v
        = (spacesC (d * ind) ++ k ++ [' ']) ++ '=' :: (' ' :: v) from by simp]
    exact splitFirstAt_append _ hnosep
  have hkeystrip : pyStrip (spacesC (d * ind) ++ k ++ [' ']) = k := by
    unfold pyStrip
    rw [List.append_assoc, trimLeft_spacesC, hkct, List.cons_append,
      trimLeft_cons_nonspace _ hsp, ← List.cons_append, ← hkct,
      trimRight_append_space _ (by simp [isPySpace]), hTR]
  have hvalstrip : pyStrip (' ' :: v) = v := by
    unfold pyStrip
    rw [trimLeft_cons_space _ (by simp [isPySpace]), hvTL, hvTR]
  have hfind : pyFind k (spacesC (d * ind) ++ k ++ ' ' :: '=' :: ' ' :: v)
      = ((d * ind : Nat) : Int) := by
    unfold pyFind
    rw [List.append_assoc, findSub_spaces (d * ind) (' ' :: '=' :: ' ' :: v)
      (by rw [hkct]; exact List.cons_ne_nil _ _) (by rw [hkct]; simpa using hsp)]
  simp only [read_line_py, splitOnChar_head_notMem hccl, hall, Bool.false_eq_true, if_false,
    hnotnode, hmem, if_true, hsplit, hkeystrip, hvalstrip, hfind]
  rw [update_keylist_mul hind hd]


/-! ## Glue lemmas for the round-trip induction -/

theorem getSec_through_chain {root : CTree} {p : List Str} {c0 : CTree}
    (hsec : getSec root p = some c0) {k0 : Str} (q : List Str) (x : CTree)
    (hfresh : hasKey c0 k0 = false) :
    getSec (setSec root p (appendT c0 (chainSecT (k0 :: q) x))) (p ++ k0 :: q) = some x := by
  rw [getSec_append, getSec_setSec hsec]
  simpa using getSec_appendT_chain q x hfresh

theorem setSec_through_chain {root : CTree} {p : List Str} {c0 : CTree}
    (hsec : getSec root p = some c0) {k0 : Str} (q : List Str) (x y : CTree)
    (hfresh : hasKey c0 k0 = false) :
    setSec (setSec root p (appendT c0 (chainSecT (k0 :: q) x))) (p ++ k0 :: q) y
      = setSec root p (appendT c0 (chainSecT (k0 :: q) y)) := by
  have h1 : getSec (setSec root p (appendT c0 (chainSecT (k0 :: q) x))) p
      = some (appendT c0 (chainSecT (k0 :: q) x)) := getSec_setSec hsec _
  rw [setSec_append h1, setSec_appendT_chain _ _ _ hfresh, setSec_setSec hsec]

theorem appendT_single_leaf (c0 : CTree) (k v : Str) (rest : CTree) :
    appendT (appendT c0 (.consLeaf k v .nil)) rest = appendT c0 (.consLeaf k v rest) := by
  rw [appendT_assoc]
  rfl

theorem appendT_single_sub (c0 : CTree) (k : Str) (ts rest : CTree) :
    appendT (appendT c0 (.consSub k ts .nil)) rest = appendT c0 (.consSub k ts rest) := by
  rw [appendT_assoc]
  rfl

theorem take_fst_append {kl0 : List Str} {d : Nat} (hd : d ≤ kl0.length) (k : Str) :
    (kl0.take d ++ [k]).take d = kl0.take d := by
  rw [List.take_append_of_le_length (by simp only [List.length_take]; omega)]
  simp [List.take_take]

theorem take_all_append {kl0 : List Str} {d : Nat} (hd : d ≤ kl0.length) (k : Str) :
    (kl0.take d ++ [k]).take (d + 1) = kl0.take d ++ [k] := by
  apply List.take_of_length_le
  simp only [List.length_append, List.length_take, List.length_singleton]
  omega


/-! ## The parse/write correspondence -/

theorem parse_write_aux (cc rc : Char) (ind : Nat)
    (hind : 0 < ind) (hcc : cc ∉ ([' ', '=', '[', ']'] : List Char)) :
    ∀ s : CTree,
      (∀ root kl0 d c0,
        d ≤ kl0.length →
        getSec root (kl0.take d) = some c0 →
        (∀ k2, hasKey s k2 = true → hasKey c0 k2 = false) →
        legalTree cc rc s = true →
        ∃ kl1, read_lines_py root kl0 (writeTreePy s d ind) cc ind
            = .ok (setSec root (kl0.take d) (appendT c0 s), kl1)
          ∧ kl1.take d = kl0.take d ∧ d ≤ kl1.length) ∧
      (∀ root kl0 d c0 k0 q,
        d + (q.length + 1) ≤ kl0.length →
        kl0.take (d + (q.length + 1)) = kl0.take d ++ k0 :: q →
        getSec root (kl0.take d) = some c0 →
        hasKey c0 k0 = false →
        legalTree cc rc s = true →
        s ≠ .nil →
        ∃ kl1, read_lines_py root kl0 (writeTreePy s (d + (q.length + 1)) ind) cc ind
            = .ok (setSec root (kl0.take d)
                (appendT c0 (chainSecT (k0 :: q) s)), kl1)
          ∧ kl1.take (d + (q.length + 1)) = kl0.take (d + (q.length + 1))
          ∧ d + (q.length + 1) ≤ kl1.length) := by
  intro s
  induction s with
  | nil =>
      constructor
      · intro root kl0 d c0 hd hsec hdisj hleg
        refine ⟨kl0, ?_, rfl, hd⟩
        rw [show writeTreePy .nil d ind = [] from rfl,
          show read_lines_py root kl0 [] cc ind = .ok (root, kl0) from rfl,
          appendT_nil, setSec_of_getSec hsec]
      · intro root kl0 d c0 k0 q _ _ _ _ _ hne
        cases hne rfl
  | consLeaf k v rest ih =>
      constructor
      · intro root kl0 d c0 hd hsec hdisj hleg
        simp only [legalTree, Bool.and_eq_true, Bool.not_eq_true'] at hleg
        obtain ⟨⟨⟨hlk, hlv⟩, hfresh⟩, hlrest⟩ := hleg
        have hfr : hasKey c0 k = false := hdisj k (by simp [hasKey])
        have hset : set root (kl0.take d ++ [k]) v true
            = (none, setSec root (kl0.take d) (appendT c0 (.consLeaf k v .nil))) := by
          rw [set_localize hsec [k] (List.cons_ne_nil _ _) v,
            show set c0 [k] v true = (none, assign c0 k (.leaf v)) from rfl,
            assign_fresh _ hfr]
          rfl
        have hline : read_lines_py root kl0 (writeTreePy (.consLeaf k v rest) d ind) cc ind
            = read_lines_py (setSec root (kl0.take d) (appendT c0 (.consLeaf k v .nil)))
                (kl0.take d) (writeTreePy rest d ind) cc ind := by
          rw [show writeTreePy (.consLeaf k v rest) d ind
              = (spacesC (d * ind) ++ k ++ ' ' :: '=' :: ' ' :: v) :: writeTreePy rest d ind
              from rfl]
          rw [read_lines_py, read_line_leaf root kl0 d ind hind hd hcc hlk hlv, hset]
        obtain ⟨kl1, hrec, htk, hlen⟩ :=
          ih.1 (setSec root (kl0.take d) (appendT c0 (.consLeaf k v .nil)))
            (kl0.take d) d (appendT c0 (.consLeaf k v .nil))
            (by simp only [List.length_take]; omega)
            (by rw [List.take_take, Nat.min_self]; exact getSec_setSec hsec _)
            (by
              intro k2 hk2
              rw [hasKey_appendT]
              have h1 : hasKey c0 k2 = false := hdisj k2 (by simp [hasKey, hk2])
              have h2 : ¬ k = k2 := by
                rintro rfl
                rw [hk2] at hfresh
                cases hfresh
              simp [h1, hasKey, h2])
            hlrest
        rw [List.take_take, Nat.min_self] at hrec htk
        rw [setSec_setSec hsec, appendT_single_leaf] at hrec
        exact ⟨kl1, by rw [hline]; exact hrec, htk, hlen⟩
      · intro root kl0 d c0 k0 q hd2 htake hsec hfresh0 hleg hne
        simp only [legalTree, Bool.and_eq_true, Bool.not_eq_true'] at hleg
        obtain ⟨⟨⟨hlk, hlv⟩, hfresh⟩, hlrest⟩ := hleg
        have hdD : d ≤ kl0.length := by omega
        have hset : set root (kl0.take (d + (q.length + 1)) ++ [k]) v true
            = (none, setSec root (kl0.take d)
                (appendT c0 (chainSecT (k0 :: q) (.consLeaf k v .nil)))) := by
          rw [htake, List.append_assoc, List.cons_append,
            set_localize hsec (k0 :: (q ++ [k])) (List.cons_ne_nil _ _) v,
            set_fresh_chain (q ++ [k]) v hfresh0,
            show k0 :: (q ++ [k]) = (k0 :: q) ++ [k] from rfl,
            chainLeafT_snoc]
        have hline : read_lines_py root kl0
              (writeTreePy (.consLeaf k v rest) (d + (q.length + 1)) ind) cc ind
            = read_lines_py
                (setSec root (kl0.take d)
                  (appendT c0 (chainSecT (k0 :: q) (.consLeaf k v .nil))))
                (kl0.take (d + (q.length + 1)))
                (writeTreePy rest (d + (q.length + 1)) ind) cc ind := by
          rw [show writeTreePy (.consLeaf k v rest) (d + (q.length + 1)) ind
              = (spacesC ((d + (q.length + 1)) * ind) ++ k ++ ' ' :: '=' :: ' ' :: v)
                :: writeTreePy rest (d + (q.length + 1)) ind from rfl]
          rw [read_lines_py,
            read_line_leaf root kl0 (d + (q.length + 1)) ind hind hd2 hcc hlk hlv, hset]
        obtain ⟨kl1, hrec, htk, hlen⟩ :=
          ih.1 (setSec root (kl0.take d)
              (appendT c0 (chainSecT (k0 :: q) (.consLeaf k v .nil))))
            (kl0.take (d + (q.length + 1))) (d + (q.length + 1)) (.consLeaf k v .nil)
            (by simp only [List.length_take]; omega)
            (by
              rw [List.take_take, Nat.min_self, htake]
              exact getSec_through_chain hsec q _ hfresh0)
            (by
              intro k2 hk2
              have h2 : ¬ k = k2 := by
                rintro rfl
                rw [hk2] at hfresh
                cases hfresh
              simp [hasKey, h2])
            hlrest
        rw [List.take_take, Nat.min_self] at hrec htk
        rw [htake, show appendT (CTree.consLeaf k v .nil) rest = CTree.consLeaf k v rest
          from rfl, setSec_through_chain hsec q _ _ hfresh0] at hrec
        rw [← htake] at hrec
        exact ⟨kl1, by rw [hline]; exact hrec, htk, hlen⟩
  | consSub k ts rest ihs iht =>
      constructor
      · intro root kl0 d c0 hd hsec hdisj hleg
        simp only [legalTree, Bool.and_eq_true, Bool.not_eq_true'] at hleg
        obtain ⟨⟨⟨⟨hlk, hmatch⟩, hfresh⟩, hlts⟩, hlrest⟩ := hleg
        have htsne : ts ≠ .nil := by
          cases ts with
          | nil => simp at hmatch
          | consLeaf a b c2 => exact fun hh => CTree.noConfusion hh
          | consSub a b c2 => exact fun hh => CTree.noConfusion hh
        have hfr : hasKey c0 k = false := hdisj k (by simp [hasKey])
        have hline : read_lines_py root kl0 (writeTreePy (.consSub k ts rest) d ind) cc ind
            = read_lines_py root (kl0.take d ++ [k])
                (writeTreePy ts (d + 1) ind ++ writeTreePy rest d ind) cc ind := by
          rw [show writeTreePy (.consSub k ts rest) d ind
              = (spacesC (d * ind) ++ '[' :: (k ++ [']']))
                :: (writeTreePy ts (d + 1) ind ++ writeTreePy rest d ind) from rfl]
          rw [read_lines_py, read_line_node root kl0 d ind hind hd hcc hlk]
        obtain ⟨kl3, hrec1, htk3, hlen3⟩ :=
          ihs.2 root (kl0.take d ++ [k]) d c0 k []
            (by simp only [List.length_nil, List.length_append, List.length_take,
              List.length_singleton]; omega)
            (by
              show (kl0.take d ++ [k]).take (d + 1) = (kl0.take d ++ [k]).take d ++ [k]
              rw [take_all_append hd, take_fst_append hd])
            (by rw [take_fst_append hd]; exact hsec)
            hfr hlts htsne
        simp only [List.length_nil, Nat.zero_add] at hrec1 htk3 hlen3
        rw [take_fst_append hd,
          show chainSecT [k] ts = CTree.consSub k ts .nil from rfl] at hrec1
        have hkl3d : kl3.take d = kl0.take d := by
          have h1 : (kl3.take (d + 1)).take d = kl3.take d := by
            rw [List.take_take, Nat.min_eq_left (by omega)]
          rw [← h1, htk3, take_all_append hd, take_fst_append hd]
        obtain ⟨kl4, hrec2, htk4, hlen4⟩ :=
          iht.1 (setSec root (kl0.take d) (appendT c0 (.consSub k ts .nil)))
            kl3 d (appendT c0 (.consSub k ts .nil))
            (by omega)
            (by rw [hkl3d]; exact getSec_setSec hsec _)
            (by
              intro k2 hk2
              rw [hasKey_appendT]
              have h1 : hasKey c0 k2 = false := hdisj k2 (by simp [hasKey, hk2])
              have h2 : ¬ k = k2 := by
                rintro rfl
                rw [hk2] at hfresh
                cases hfresh
              simp [h1, hasKey, h2])
            hlrest
        rw [hkl3d, setSec_setSec hsec, appendT_single_sub] at hrec2
        refine ⟨kl4, ?_, by rw [htk4, hkl3d], by omega⟩
        rw [hline, read_lines_append, hrec1]
        exact hrec2
      · intro root kl0 d c0 k0 q hd2 htake hsec hfresh0 hleg hne
        simp only [legalTree, Bool.and_eq_true, Bool.not_eq_true'] at hleg
        obtain ⟨⟨⟨⟨hlk, hmatch⟩, hfresh⟩, hlts⟩, hlrest⟩ := hleg
        have htsne : ts ≠ .nil := by
          cases ts with
          | nil => simp at hmatch
          | consLeaf a b c2 => exact fun hh => CTree.noConfusion hh
          | consSub a b c2 => exact fun hh => CTree.noConfusion hh
        have hdD : d ≤ kl0.length := by omega
        have htkd : (kl0.take (d + (q.length + 1)) ++ [k]).take d = kl0.take d := by
          rw [List.take_append_of_le_length (by simp only [List.length_take]; omega),
            List.take_take, Nat.min_eq_left (by omega)]
        have hline : read_lines_py root kl0
              (writeTreePy (.consSub k ts rest) (d + (q.length + 1)) ind) cc ind
            = read_lines_py root (kl0.take (d + (q.length + 1)) ++ [k])
                (writeTreePy ts ((d + (q.length + 1)) + 1) ind
                  ++ writeTreePy rest (d + (q.length + 1)) ind) cc ind := by
          rw [show writeTreePy (.consSub k ts rest) (d + (q.length + 1)) ind
              = (spacesC ((d + (q.length + 1)) * ind) ++ '[' :: (k ++ [']']))
                :: (writeTreePy ts ((d + (q.length + 1)) + 1) ind
                  ++ writeTreePy rest (d + (q.length + 1)) ind) from rfl]
          rw [read_lines_py, read_line_node root kl0 (d + (q.length + 1)) ind hind hd2 hcc hlk]
        have hdep : d + ((q ++ [k]).length + 1) = (d + (q.length + 1)) + 1 := by
          simp only [List.length_append, List.length_singleton]
          omega
        obtain ⟨kl3, hrec1, htk3, hlen3⟩ :=
          ihs.2 root (kl0.take (d + (q.length + 1)) ++ [k]) d c0 k0 (q ++ [k])
            (by
              rw [hdep]
              simp only [List.length_append, List.length_take, List.length_singleton]
              omega)
            (by
              rw [hdep, take_all_append hd2, htkd, htake, List.append_assoc, List.cons_append])
            (by rw [htkd]; exact hsec)
            hfresh0 hlts htsne
        rw [hdep] at hrec1 htk3 hlen3
        rw [htkd,
          show k0 :: (q ++ [k]) = (k0 :: q) ++ [k] from rfl,
          chainSecT_snoc] at hrec1
        have hkl3D : kl3.take (d + (q.length + 1)) = kl0.take (d + (q.length + 1)) := by
          have h1 : (kl3.take ((d + (q.length + 1)) + 1)).take (d + (q.length + 1))
              = kl3.take (d + (q.length + 1)) := by
            rw [List.take_take, Nat.min_eq_left (by omega)]
          rw [← h1, htk3, take_all_append hd2, take_fst_append hd2]
        obtain ⟨kl4, hrec2, htk4, hlen4⟩ :=
          iht.1 (setSec root (kl0.take d)
              (appendT c0 (chainSecT (k0 :: q) (.consSub k ts .nil))))
            kl3 (d + (q.length + 1)) (.consSub k ts .nil)
            (by omega)
            (by
              rw [hkl3D, htake]
              exact getSec_through_chain hsec q _ hfresh0)
            (by
              intro k2 hk2
              have h2 : ¬ k = k2 := by
                rintro rfl
                rw [hk2] at hfresh
                cases hfresh
              simp [hasKey, h2])
            hlrest
        rw [hkl3D, htake,
          show appendT (CTree.consSub k ts .nil) rest = CTree.consSub k ts rest from rfl,
          setSec_through_chain hsec q _ _ hfresh0] at hrec2
        refine ⟨kl4, ?_, by rw [htk4, hkl3D], by omega⟩
        rw [hline, read_lines_append, hrec1]
        exact hrec2


/-! ## The resolution pass is the identity on reference-free trees -/

theorem legalTree_nodupDeep {cc rc : Char} {t : CTree} (h : legalTree cc rc t = true) :
    nodupDeep t = true := by
  induction t with
  | nil => rfl
  | consLeaf k v rest ih =>
      simp only [legalTree, Bool.and_eq_true, Bool.not_eq_true'] at h
      obtain ⟨⟨⟨hlk, hlv⟩, hfresh⟩, hrest⟩ := h
      simp [nodupDeep, hfresh, ih hrest]
  | consSub k ts rest ihs iht =>
      simp only [legalTree, Bool.and_eq_true, Bool.not_eq_true'] at h
      obtain ⟨⟨⟨⟨hlk, hm⟩, hfresh⟩, hlts⟩, hlrest⟩ := h
      simp [nodupDeep, hfresh, ihs hlts, iht hlrest]

theorem get_leaf_legal {cc rc : Char} {t : CTree} {kl : List Str} {v : Str}
    (hleg : legalTree cc rc t = true) (h : get t kl = .ok (.leaf v)) :
    legalVal cc rc v = true := by
  induction t generalizing kl with
  | nil =>
      exfalso
      rcases kl with _ | ⟨k, _ | ⟨k2, kl2⟩⟩ <;> simp [get, lookup] at h
  | consLeaf k v0 rest ih =>
      simp only [legalTree, Bool.and_eq_true, Bool.not_eq_true'] at hleg
      obtain ⟨⟨⟨hlk, hlv⟩, hfresh⟩, hlrest⟩ := hleg
      rcases kl with _ | ⟨k2, _ | ⟨k3, kl3⟩⟩
      · simp [get] at h
      · by_cases hk : k = k2
        · subst hk
          rw [get, show lookup (CTree.consLeaf k v0 rest) k = some (.leaf v0) from by
            simp [lookup]] at h
          simp only [Except.ok.injEq, CVal.leaf.injEq] at h
          subst h
          exact hlv
        · rw [get_consLeaf_ne v0 rest _ hk] at h
          exact ih hlrest h
      · by_cases hk : k = k2
        · subst hk
          rw [show get (CTree.consLeaf k v0 rest) (k :: k3 :: kl3)
              = .error .attributeError from by simp [get, lookup]] at h
          cases h
        · rw [get_consLeaf_ne v0 rest _ hk] at h
          exact ih hlrest h
  | consSub k ts rest ihs iht =>
      simp only [legalTree, Bool.and_eq_true, Bool.not_eq_true'] at hleg
      obtain ⟨⟨⟨⟨hlk, hm⟩, hfresh⟩, hlts⟩, hlrest⟩ := hleg
      rcases kl with _ | ⟨k2, _ | ⟨k3, kl3⟩⟩
      · simp [get] at h
      · by_cases hk : k = k2
        · subst hk
          simp [get, lookup] at h
        · rw [get_consSub_ne ts rest _ hk] at h
          exact iht hlrest h
      · by_cases hk : k = k2
        · subst hk
          rw [show get (CTree.consSub k ts rest) (k :: k3 :: kl3)
              = get ts (k3 :: kl3) from by simp [get, lookup]] at h
          exact ihs hlts h
        · rw [get_consSub_ne ts rest _ hk] at h
          exact iht hlrest h

theorem solve_kl_noop {t : CTree} {kl : List Str} {v : Str} {rc : Char} (m : Nat)
    (hget : get t kl = .ok (.leaf v)) (hrc : v.contains rc = false) :
    solve_references_keylist t kl m rc = .ok (v, t) := by
  have hnr : has_reference v rc = false := by
    simp only [has_reference, hrc, Bool.and_false]
  have hstr : solve_references_string m t v rc = .ok (v, t) := by
    rw [solve_references_string.eq_def]
    simp [hnr]
  unfold solve_references_keylist solveKlWith
  rw [hget]
  simp only [hstr]
  rw [set_same_leaf false hget]

theorem solveRefsPassGo_noop {t : CTree} {rc : Char} (m : Nat) (kls : List (List Str))
    (h : ∀ kl ∈ kls, ∃ v, get t kl = .ok (.leaf v) ∧ v.contains rc = false) :
    solveRefsPassGo rc m t kls = .ok t := by
  induction kls with
  | nil => rfl
  | cons kl rest ih =>
      obtain ⟨v, hget, hrc⟩ := h kl (List.mem_cons_self _ _)
      have hkl := solve_kl_noop m hget hrc
      simp only [solveRefsPassGo, hkl]
      exact ih (fun kl2 hm => h kl2 (List.mem_cons_of_mem _ hm))

theorem solveReferencesPass_legal {cc rc : Char} {t : CTree}
    (hleg : legalTree cc rc t = true) : solveReferencesPass t rc = .ok t := by
  unfold solveReferencesPass
  apply solveRefsPassGo_noop
  intro kl hm
  obtain ⟨v, hget⟩ := suboptions_sound (legalTree_nodupDeep hleg) hm
  refine ⟨v, hget, ?_⟩
  have hlv := get_leaf_legal hleg hget
  simp only [legalVal, Bool.and_eq_true, Bool.not_eq_true'] at hlv
  exact hlv.2

/-! ## Claim C4: the nested-convention round trip -/

/-- Claim C4: for the nested convention, writing a tree and reading the
text back reproduces the tree exactly: `read_file` (parse plus reference
resolution) applied to the output of `tofile` returns the original tree,
for every tree whose keys and values are legal (strip-invariant, free of
the comment, reference and structural characters, unique keys, no empty
section) and any positive indentation unit.  This is the
`write(parse(text)) == text` round trip read at the tree level: the
normalized form of a text is exactly the written image of the tree it
denotes. -/
theorem nested_round_trip (t : CTree) (cc rc : Char) (ind : Nat)
    (hind : 0 < ind) (hcc : cc ∉ ([' ', '=', '[', ']'] : List Char))
    (hleg : legalTree cc rc t = true) :
    read_file_py (writeTreePy t 0 ind) cc rc ind = .ok t := by
  obtain ⟨kl1, hread, -, -⟩ :=
    (parse_write_aux cc rc ind hind hcc t).1 .nil [] 0 .nil
      (by simp) rfl (fun k2 _ => rfl) hleg
  have hread2 : read_lines_py .nil [] (writeTreePy t 0 ind) cc ind = .ok (t, kl1) := hread
  unfold read_file_py
  rw [hread2]
  exact solveReferencesPass_legal hleg

/-- Witness for `nested_round_trip` at the specification's example tree,
with the default comment character, reference character and indentation. -/
theorem nested_round_trip_witness :
    (0 : Nat) < 4 ∧
    ('#' ∉ ([' ', '=', '[', ']'] : List Char)) ∧
    legalTree '#' '%'
      (.consLeaf "option1".data "1".data
        (.consSub "section1".data
          (.consLeaf "option2".data "2".data
            (.consSub "subsection11".data (.consLeaf "option3".data "3".data .nil) .nil))
          .nil)) = true ∧
    read_file_py
      (writeTreePy
        (.consLeaf "option1".data "1".data
          (.consSub "section1".data
            (.consLeaf "option2".data "2".data
              (.consSub "subsection11".data (.consLeaf "option3".data "3".data .nil) .nil))
            .nil)) 0 4) '#' '%' 4
      = .ok (.consLeaf "option1".data "1".data
          (.consSub "section1".data
            (.consLeaf "option2".data "2".data
              (.consSub "subsection11".data (.consLeaf "option3".data "3".data .nil) .nil))
            .nil)) :=
  ⟨by decide, by decide, by decide,
    nested_round_trip
      (.consLeaf "option1".data "1".data
        (.consSub "section1".data
          (.consLeaf "option2".data "2".data
            (.consSub "subsection11".data (.consLeaf "option3".data "3".data .nil) .nil))
          .nil)) '#' '%' 4 (by decide) (by decide) (by decide)⟩

end TreeConfigParser
